import Mathlib

/-!
# Verification of `sinloss/arg` : `parser.go`

A shallow embedding of the argument parser of `src/parser.go` and theorems about it.

Modelling conventions.

* A Go `rune` is an `Int` (it is an `int32`; none of the arithmetic here can overflow).
* A Go `string` is the list of its bytes (natural numbers below 256; the decoder treats
  anything from `0xF5` up as an invalid lead byte).  The standard-library functions that
  `parser.go` calls on the configuration strings are modelled on bytes: `decodeRune`
  (`utf8.DecodeRuneInString`), `toRunes` (`[]rune(s)`), `encodeRune` (`string(r)`),
  `IndexByte`, `Index` and `IndexRune` (package `strings`).  Invalid UTF-8 decodes to
  `RuneError` one byte at a time, as in Go.
* `Parse` only ever looks at `[]rune(text)`, so its argument is that rune sequence, and a
  token (built by `buf += string(c)`) is the rune sequence of the resulting string.
* The scope stack (`github.com/sinloss/stk`, an external library) is a list whose head is
  the top of the stack; `Pop` and `Peek` on an empty stack give `nil` (`none`) and leave the
  stack empty.
* An `interface{}` value that is either a `state`, a `quote` or `nil` is an `Option Scope`.
-/

namespace ArgParse

/-- A Go rune. -/
abbrev Rune := Int

/-- The constants `qut`, `spl`, `esc` of type `state` (parser.go, lines 11-17). -/
inductive state where
  | qut
  | spl
  | esc
  deriving DecidableEq, Repr

/-- What the scope stack and the variable `scope` may hold: a `state` or a `quote` (a rune). -/
inductive Scope where
  | st (s : state)
  | quote (c : Rune)
  deriving DecidableEq, Repr

/-- Go `utf8.RuneError`, the replacement character U+FFFD. -/
def RuneError : Int := 65533

/-- Go `utf8.ValidRune`: a code point up to U+10FFFF that is not a surrogate. -/
def ValidRune (r : Int) : Bool :=
  decide ((0 ≤ r ∧ r < 0xD800) ∨ (0xDFFF < r ∧ r ≤ 0x10FFFF))

/-- The least second byte that Go's UTF-8 decoder accepts after the lead byte `s0`. -/
def acceptLo (s0 : Nat) : Nat :=
  if s0 = 0xE0 then 0xA0 else if s0 = 0xF0 then 0x90 else 0x80

/-- The greatest second byte that Go's UTF-8 decoder accepts after the lead byte `s0`. -/
def acceptHi (s0 : Nat) : Nat :=
  if s0 = 0xED then 0x9F else if s0 = 0xF4 then 0x8F else 0xBF

/-- Go `utf8.DecodeRuneInString`: the first rune of a byte string and its width in bytes;
an invalid or truncated sequence gives `RuneError` with width 1. -/
def decodeRune : List Nat → Int × Nat
  | [] => (RuneError, 0)
  | s0 :: t =>
    if s0 < 0x80 then ((s0 : Int), 1)
    else if s0 < 0xC2 then (RuneError, 1)
    else if s0 < 0xE0 then
      match t with
      | s1 :: _ =>
        if 0x80 ≤ s1 ∧ s1 ≤ 0xBF then (((s0 % 32 * 64 + s1 % 64 : Nat) : Int), 2)
        else (RuneError, 1)
      | _ => (RuneError, 1)
    else if s0 < 0xF0 then
      match t with
      | s1 :: s2 :: _ =>
        if acceptLo s0 ≤ s1 ∧ s1 ≤ acceptHi s0 then
          if 0x80 ≤ s2 ∧ s2 ≤ 0xBF then
            (((s0 % 16 * 4096 + s1 % 64 * 64 + s2 % 64 : Nat) : Int), 3)
          else (RuneError, 1)
        else (RuneError, 1)
      | _ => (RuneError, 1)
    else if s0 < 0xF5 then
      match t with
      | s1 :: s2 :: s3 :: _ =>
        if acceptLo s0 ≤ s1 ∧ s1 ≤ acceptHi s0 then
          if 0x80 ≤ s2 ∧ s2 ≤ 0xBF then
            if 0x80 ≤ s3 ∧ s3 ≤ 0xBF then
              (((s0 % 8 * 262144 + s1 % 64 * 4096 + s2 % 64 * 64 + s3 % 64 : Nat) : Int), 4)
            else (RuneError, 1)
          else (RuneError, 1)
        else (RuneError, 1)
      | _ => (RuneError, 1)
    else (RuneError, 1)

/-- Go `string(r)` for a rune `r`: its UTF-8 encoding, that of U+FFFD when `r` is not a
valid rune. -/
def encodeRune (r : Int) : List Nat :=
  if ValidRune r then
    if r < 0x80 then [r.toNat]
    else if r < 0x800 then [0xC0 + r.toNat / 64, 0x80 + r.toNat % 64]
    else if r < 0x10000 then
      [0xE0 + r.toNat / 4096, 0x80 + r.toNat / 64 % 64, 0x80 + r.toNat % 64]
    else
      [0xF0 + r.toNat / 262144, 0x80 + r.toNat / 4096 % 64, 0x80 + r.toNat / 64 % 64,
        0x80 + r.toNat % 64]
  else [0xEF, 0xBF, 0xBD]

/-- Go `[]rune(s)` with `skip` bytes of an already decoded rune still to pass over. -/
def toRunesAux : Nat → List Nat → List Int
  | _, [] => []
  | skip + 1, _ :: t => toRunesAux skip t
  | 0, b :: t => (decodeRune (b :: t)).1 :: toRunesAux ((decodeRune (b :: t)).2 - 1) t

/-- Go `[]rune(s)`: the runes of a byte string. -/
def toRunes (s : List Nat) : List Int := toRunesAux 0 s

/-- Go `utf8.ValidString` with `skip` bytes of an already decoded rune still to pass over. -/
def validAux : Nat → List Nat → Bool
  | _, [] => true
  | skip + 1, _ :: t => validAux skip t
  | 0, b :: t =>
    if (decodeRune (b :: t)).1 = RuneError ∧ (decodeRune (b :: t)).2 = 1 then false
    else validAux ((decodeRune (b :: t)).2 - 1) t

/-- Go `utf8.ValidString`: no decoding step meets an invalid or truncated sequence. -/
def ValidString (s : List Nat) : Bool := validAux 0 s

/-- An index moved one byte to the right; `-1` (not found) stays `-1`. -/
def succIndex (i : Int) : Int := if i = -1 then -1 else i + 1

/-- Go `strings.IndexByte`. -/
def IndexByte : List Nat → Nat → Int
  | [], _ => -1
  | b :: t, c => if b = c then 0 else succIndex (IndexByte t c)

/-- Go `strings.Index`: the first byte index at which `sub` occurs in the string. -/
def Index : List Nat → List Nat → Int
  | [], sub => if sub = [] then 0 else -1
  | b :: t, sub => if sub.isPrefixOf (b :: t) then 0 else succIndex (Index t sub)

/-- The loop `for i, r := range s` that returns `i` at the first `r` equal to `c`, with
`skip` bytes of an already decoded rune still to pass over. -/
def rangeIndexAux (c : Int) : Nat → List Nat → Int
  | _, [] => -1
  | skip + 1, _ :: t => succIndex (rangeIndexAux c skip t)
  | 0, b :: t =>
    if (decodeRune (b :: t)).1 = c then 0
    else succIndex (rangeIndexAux c ((decodeRune (b :: t)).2 - 1) t)

/-- Go `strings.IndexRune(s, r)`. -/
def IndexRune (s : List Nat) (r : Int) : Int :=
  if 0 ≤ r ∧ r < 0x80 then IndexByte s r.toNat
  else if r = RuneError then rangeIndexAux RuneError 0 s
  else if ValidRune r = false then -1
  else Index s (encodeRune r)

/-- The struct `ArgParser` (parser.go, lines 20-25). -/
structure ArgParser where
  symbols : List Nat
  escaper : Rune
  boundary : Int
  lenient : Bool
  deriving Repr

/-- The constructor `NewArgParser` (parser.go, lines 33-39): `symbols` is the byte string
`quotes + splitors` and `boundary` is `len([]rune(quotes))`. -/
def NewArgParser (quotes splitors : List Nat) (escaper : Rune) (lenient : Bool) : ArgParser :=
  { symbols := quotes ++ splitors
    boundary := ((toRunes quotes).length : Int)
    escaper := escaper
    lenient := lenient }

/-- The preset `GeneralArgParser` (parser.go, lines 43-45): quotes `"` and `'`, splitors
space and tab, escaper backslash, lenient. -/
def GeneralArgParser : ArgParser :=
  NewArgParser [34, 39] [32, 9] 92 true

/-- The method `check` (parser.go, lines 48-60); `none` is the `nil` result. -/
def ArgParser.check (ap : ArgParser) (c : Rune) : Option state :=
  if c = ap.escaper then some state.esc
  else
    let i := IndexRune ap.symbols c
    if i = -1 then none
    else if i < ap.boundary then some state.qut
    else some state.spl

/-- The local state of one call of `Parse`: the result slice `args`, the scope stack
(head is the top) and the buffer `buf`. -/
structure PState where
  args : List (List Rune)
  scopes : List Scope
  buf : List Rune
  deriving DecidableEq, Repr

/-- The stack operation `Peek`: the top of the stack, `nil` when it is empty. -/
def Peek (s : List Scope) : Option Scope := s.head?

/-- The stack operation `Pop`: the popped value (`nil` when the stack is empty) and the
remaining stack. -/
def Pop (s : List Scope) : Option Scope × List Scope := (s.head?, s.tail)

/-- The stack operation `Push`. -/
def Push (s : List Scope) (x : Scope) : List Scope := x :: s

/-- The closure `fin` (parser.go, lines 69-75): pop a scope and flush a non-empty buffer. -/
def fin (s : PState) : PState :=
  let scopes := (Pop s.scopes).2
  if s.buf ≠ [] then { args := s.args ++ [s.buf], scopes := scopes, buf := [] }
  else { args := s.args, scopes := scopes, buf := s.buf }

/-- The closure `acc` (parser.go, lines 78-80). -/
def acc (c : Rune) (s : PState) : PState :=
  { s with buf := s.buf ++ [c] }

/-- The closure `escape` (parser.go, lines 83-90): the returned flag and the new state. -/
def escape (scope : Option Scope) (c : Rune) (s : PState) : Bool × PState :=
  if scope = some (Scope.st state.esc) then
    let s1 := acc c s
    (true, { s1 with scopes := (Pop s1.scopes).2 })
  else (false, s)

/-- One `scopes.Push(x)` on the parse state. -/
def pushScope (x : Scope) (s : PState) : PState :=
  { s with scopes := Push s.scopes x }

/-- The body of the scanning loop (parser.go, lines 95-135) for one rune `c`. -/
def step (ap : ArgParser) (s : PState) (c : Rune) : PState :=
  let t := ap.check c
  let scope := Peek s.scopes
  match t with
  | some state.esc =>
    let r := escape scope c s
    if !r.1 then pushScope (Scope.st state.esc) r.2 else r.2
  | some state.spl =>
    match scope with
    | some (Scope.quote _) => acc c s
    | some (Scope.st _) =>
      let r := escape scope c s
      if r.1 then r.2
      else
        let s2 := if scope = some (Scope.st state.spl) then fin r.2 else r.2
        pushScope (Scope.st state.spl) s2
    | none => s
  | some state.qut =>
    match scope with
    | some (Scope.quote scp) =>
      if c = scp then pushScope (Scope.st state.spl) (fin s)
      else acc c s
    | some (Scope.st _) =>
      let r := escape scope c s
      if !r.1 then
        let s2 := if scope = some (Scope.st state.spl) then fin r.2 else r.2
        pushScope (Scope.quote c) s2
      else r.2
    | none => s
  | none => acc c s

/-- The state before the loop: `scopes.Push(spl)` on a new stack, empty `args` and `buf`
(parser.go, lines 64-66 and 93). -/
def initState : PState :=
  { args := [], scopes := Push [] (Scope.st state.spl), buf := [] }

/-- The scanning loop (parser.go, lines 94-136) over the runes of the text. -/
def scan (ap : ArgParser) (text : List Rune) : PState :=
  text.foldl (step ap) initState

/-- The error of parser.go, line 147. -/
def errUnfinishedQuote : String := "arg parser: unfinished quote for the input"

/-- The error of parser.go, line 149. -/
def errUnfinishedEscape : String := "arg parser: unfinished escape for the input"

/-- Whether an `interface{}` value holds a `quote` (the type assertion of line 146). -/
def isQuote : Option Scope → Bool
  | some (Scope.quote _) => true
  | _ => false

/-- The end of `Parse` (parser.go, lines 139-154) on the state the loop leaves: the
returned slice (`[]` is `nil`) and the returned error (`none` is `nil`).  On the strict
success path `fin()` runs after `scopes.Pop()` has emptied the stack, so the `Pop` inside
`fin` acts on an empty stack there. -/
def finish (ap : ArgParser) (s : PState) : List (List Rune) × Option String :=
  if s.scopes.length ≠ 0 then
    if ap.lenient then ((fin s).args, none)
    else
      let unfinished := (Pop s.scopes).1
      let s1 : PState := { s with scopes := (Pop s.scopes).2 }
      if s1.scopes.length = 0 ∧ unfinished = some (Scope.st state.spl) then
        ((fin s1).args, none)
      else if isQuote unfinished then ([], some errUnfinishedQuote)
      else if unfinished = some (Scope.st state.esc) then ([], some errUnfinishedEscape)
      else (s1.args, none)
  else (s.args, none)

/-- The method `Parse` (parser.go, lines 63-155). -/
def ArgParser.Parse (ap : ArgParser) (text : List Rune) : List (List Rune) × Option String :=
  finish ap (scan ap text)

/-- The spec's reference for delimiter-only input: split on delimiter runs, drop
empties.  This definition follows the words of the specification, not the code. -/
def splitDropEmpties (splitors : List Rune) (text : List Rune) : List (List Rune) :=
  (text.splitOnP (fun c => decide (c ∈ splitors))).filter (fun t => decide (t ≠ []))

/-- The result slice after a flush of the buffer: what `fin` leaves in `args`. -/
def flushed (s : PState) : List (List Rune) :=
  if s.buf = [] then s.args else s.args ++ [s.buf]

/-- The four shapes of the scope stack (top first). -/
def Shape (l : List Scope) : Prop :=
  l = [Scope.st state.spl] ∨ (∃ q, l = [Scope.quote q]) ∨
    l = [Scope.st state.esc, Scope.st state.spl] ∨
    ∃ q, l = [Scope.st state.esc, Scope.quote q]

/-- The spec's classifier (section 4.1): Escape if the rune is the escaper, else Quote if
it is a member of the quote set, else Delimiter if it is a member of the delimiter set,
else Literal.  This definition follows the words of the specification, not the code. -/
def checkSpec (quotes splitors : List Rune) (escaper : Rune) (c : Rune) : Option state :=
  if c = escaper then some state.esc
  else if c ∈ quotes then some state.qut
  else if c ∈ splitors then some state.spl
  else none

/-- The runes accumulated so far in order: the tokens of `args` followed by `buf`. -/
def content (s : PState) : List Rune :=
  s.args.flatten ++ s.buf

/-- The size of the scope stack at the `scopes.Pop()` of one call of `fin`
(parser.go, line 70). -/
def finOps (s : PState) : List Nat := [s.scopes.length]

/-- The size of the scope stack at the `scopes.Pop()` of one call of `escape`
(parser.go, line 86), which runs only when `scope == esc`. -/
def escapeOps (scope : Option Scope) (s : PState) : List Nat :=
  if scope = some (Scope.st state.esc) then [s.scopes.length] else []

/-- The sizes of the scope stack at the `Peek` and `Pop` calls of one iteration of the
scanning loop, in the order of the calls: the `Peek` of line 96, then the `Pop` inside
`escape` or `fin` on the branches of `step` that reach one. -/
def stepOps (ap : ArgParser) (s : PState) (c : Rune) : List Nat :=
  let t := ap.check c
  let scope := Peek s.scopes
  s.scopes.length ::
    match t with
    | some state.esc => escapeOps scope s
    | some state.spl =>
      match scope with
      | some (Scope.quote _) => []
      | some (Scope.st _) =>
        let r := escape scope c s
        escapeOps scope s ++
          (if r.1 then []
           else if scope = some (Scope.st state.spl) then finOps r.2 else [])
      | none => []
    | some state.qut =>
      match scope with
      | some (Scope.quote scp) => if c = scp then finOps s else []
      | some (Scope.st _) =>
        let r := escape scope c s
        escapeOps scope s ++
          (if !r.1 then (if scope = some (Scope.st state.spl) then finOps r.2 else [])
           else [])
      | none => []
    | none => []

/-- The sizes of the scope stack at the `Peek` and `Pop` calls of the scanning loop run
from state `s` over the runes of the text. -/
def scanOps (ap : ArgParser) : List Rune → PState → List Nat
  | [], _ => []
  | c :: cs, s => stepOps ap s c ++ scanOps ap cs (step ap s c)

/-- The sizes of the scope stack at the `Pop` calls of the end of `Parse`
(parser.go, lines 139-152): the `Pop` inside `fin` in lenient mode; in strict mode the
`Pop` of line 143 and, on the success branch, the `Pop` inside `fin`. -/
def finishOps (ap : ArgParser) (s : PState) : List Nat :=
  if s.scopes.length ≠ 0 then
    if ap.lenient then finOps s
    else
      let unfinished := (Pop s.scopes).1
      let s1 : PState := { s with scopes := (Pop s.scopes).2 }
      s.scopes.length ::
        (if s1.scopes.length = 0 ∧ unfinished = some (Scope.st state.spl) then finOps s1
         else [])
  else []

/-- The sizes of the scope stack at every `Peek` and `Pop` call of one `Parse`, in order. -/
def ParseOps (ap : ArgParser) (text : List Rune) : List Nat :=
  scanOps ap text initState ++ finishOps ap (scan ap text)

/-! ## UTF-8 decoding and `strings.IndexRune` -/

theorem acceptLo_ge (s0 : Nat) : 0x80 ≤ acceptLo s0 := by
  unfold acceptLo; split_ifs <;> omega

theorem acceptHi_le (s0 : Nat) : acceptHi s0 ≤ 0xBF := by
  unfold acceptHi; split_ifs <;> omega

theorem decodeRune_ascii (b : Nat) (t : List Nat) (h : b < 0x80) :
    decodeRune (b :: t) = ((b : Int), 1) := by
  simp [decodeRune, h]

/-- The five outcomes of one decoding step. -/
theorem decodeRune_cases (b : Nat) (t : List Nat) :
    (b < 0x80 ∧ decodeRune (b :: t) = ((b : Int), 1)) ∨
    (0x80 ≤ b ∧ decodeRune (b :: t) = (RuneError, 1)) ∨
    (∃ s1 r, t = s1 :: r ∧ 0xC2 ≤ b ∧ b < 0xE0 ∧ 0x80 ≤ s1 ∧ s1 ≤ 0xBF ∧
      decodeRune (b :: t) = (((b % 32 * 64 + s1 % 64 : Nat) : Int), 2)) ∨
    (∃ s1 s2 r, t = s1 :: s2 :: r ∧ 0xE0 ≤ b ∧ b < 0xF0 ∧ acceptLo b ≤ s1 ∧ s1 ≤ acceptHi b ∧
      0x80 ≤ s2 ∧ s2 ≤ 0xBF ∧
      decodeRune (b :: t) = (((b % 16 * 4096 + s1 % 64 * 64 + s2 % 64 : Nat) : Int), 3)) ∨
    (∃ s1 s2 s3 r, t = s1 :: s2 :: s3 :: r ∧ 0xF0 ≤ b ∧ b < 0xF5 ∧ acceptLo b ≤ s1 ∧
      s1 ≤ acceptHi b ∧ 0x80 ≤ s2 ∧ s2 ≤ 0xBF ∧ 0x80 ≤ s3 ∧ s3 ≤ 0xBF ∧
      decodeRune (b :: t) =
        (((b % 8 * 262144 + s1 % 64 * 4096 + s2 % 64 * 64 + s3 % 64 : Nat) : Int), 4)) := by
  by_cases h1 : b < 0x80
  · exact Or.inl ⟨h1, decodeRune_ascii b t h1⟩
  · by_cases h2 : b < 0xC2
    · exact Or.inr (Or.inl ⟨by omega, by simp [decodeRune, h1, h2]⟩)
    · by_cases h3 : b < 0xE0
      · rcases t with _ | ⟨s1, r⟩
        · exact Or.inr (Or.inl ⟨by omega, by simp [decodeRune, h1, h2, h3]⟩)
        · by_cases c1 : 0x80 ≤ s1 ∧ s1 ≤ 0xBF
          · exact Or.inr (Or.inr (Or.inl ⟨s1, r, rfl, by omega, h3, c1.1, c1.2,
              by simp [decodeRune, h1, h2, h3, c1]⟩))
          · exact Or.inr (Or.inl ⟨by omega, by simp [decodeRune, h1, h2, h3, c1]⟩)
      · by_cases h4 : b < 0xF0
        · rcases t with _ | ⟨s1, _ | ⟨s2, r⟩⟩
          · exact Or.inr (Or.inl ⟨by omega, by simp [decodeRune, h1, h2, h3, h4]⟩)
          · exact Or.inr (Or.inl ⟨by omega, by simp [decodeRune, h1, h2, h3, h4]⟩)
          · by_cases c1 : acceptLo b ≤ s1 ∧ s1 ≤ acceptHi b
            · by_cases c2 : 0x80 ≤ s2 ∧ s2 ≤ 0xBF
              · exact Or.inr (Or.inr (Or.inr (Or.inl ⟨s1, s2, r, rfl, by omega, h4, c1.1, c1.2,
                  c2.1, c2.2, by simp [decodeRune, h1, h2, h3, h4, c1, c2]⟩)))
              · exact Or.inr (Or.inl ⟨by omega, by simp [decodeRune, h1, h2, h3, h4, c1, c2]⟩)
            · exact Or.inr (Or.inl ⟨by omega, by simp [decodeRune, h1, h2, h3, h4, c1]⟩)
        · by_cases h5 : b < 0xF5
          · rcases t with _ | ⟨s1, _ | ⟨s2, _ | ⟨s3, r⟩⟩⟩
            · exact Or.inr (Or.inl ⟨by omega, by simp [decodeRune, h1, h2, h3, h4, h5]⟩)
            · exact Or.inr (Or.inl ⟨by omega, by simp [decodeRune, h1, h2, h3, h4, h5]⟩)
            · exact Or.inr (Or.inl ⟨by omega, by simp [decodeRune, h1, h2, h3, h4, h5]⟩)
            · by_cases c1 : acceptLo b ≤ s1 ∧ s1 ≤ acceptHi b
              · by_cases c2 : 0x80 ≤ s2 ∧ s2 ≤ 0xBF
                · by_cases c3 : 0x80 ≤ s3 ∧ s3 ≤ 0xBF
                  · exact Or.inr (Or.inr (Or.inr (Or.inr ⟨s1, s2, s3, r, rfl, by omega, h5,
                      c1.1, c1.2, c2.1, c2.2, c3.1, c3.2,
                      by simp [decodeRune, h1, h2, h3, h4, h5, c1, c2, c3]⟩)))
                  · exact Or.inr (Or.inl ⟨by omega,
                      by simp [decodeRune, h1, h2, h3, h4, h5, c1, c2, c3]⟩)
                · exact Or.inr (Or.inl ⟨by omega,
                    by simp [decodeRune, h1, h2, h3, h4, h5, c1, c2]⟩)
              · exact Or.inr (Or.inl ⟨by omega, by simp [decodeRune, h1, h2, h3, h4, h5, c1]⟩)
          · exact Or.inr (Or.inl ⟨by omega, by simp [decodeRune, h1, h2, h3, h4, h5]⟩)


theorem decodeRune_width (b : Nat) (t : List Nat) :
    1 ≤ (decodeRune (b :: t)).2 ∧ (decodeRune (b :: t)).2 ≤ (b :: t).length := by
  rcases decodeRune_cases b t with ⟨_, h⟩ | ⟨_, h⟩ | ⟨s1, r, ht, _, _, _, _, h⟩ |
    ⟨s1, s2, r, ht, _, _, _, _, _, _, h⟩ | ⟨s1, s2, s3, r, ht, _, _, _, _, _, _, _, _, h⟩ <;>
    rw [h] <;> subst_vars <;> simp

theorem decodeRune_cont (b : Nat) (t : List Nat) :
    ∀ x ∈ t.take ((decodeRune (b :: t)).2 - 1), 0x80 ≤ x ∧ x ≤ 0xBF := by
  have hlo := acceptLo_ge b
  have hhi := acceptHi_le b
  rcases decodeRune_cases b t with ⟨h0, h⟩ | ⟨h0, h⟩ | ⟨s1, r, ht, h1, h2, h3, h4, h⟩ |
    ⟨s1, s2, r, ht, h1, h2, h3, h4, h5, h6, h⟩ |
    ⟨s1, s2, s3, r, ht, h1, h2, h3, h4, h5, h6, h7, h8, h⟩ <;>
    rw [h] <;> subst_vars <;> simp <;> omega

theorem decodeRune_high (b : Nat) (t : List Nat) (hb : 0x80 ≤ b) :
    0x80 ≤ (decodeRune (b :: t)).1 := by
  have hhi := acceptHi_le b
  rcases decodeRune_cases b t with ⟨h0, h⟩ | ⟨h0, h⟩ | ⟨s1, r, ht, h1, h2, h3, h4, h⟩ |
    ⟨s1, s2, r, ht, h1, h2, h3, h4, h5, h6, h⟩ |
    ⟨s1, s2, s3, r, ht, h1, h2, h3, h4, h5, h6, h7, h8, h⟩ <;>
    rw [h] <;> dsimp only [RuneError]
  · omega
  · omega
  · omega
  · unfold acceptLo at h3
    split_ifs at h3 <;> omega
  · unfold acceptLo at h3
    split_ifs at h3 <;> omega

theorem decodeRune_valid (s : List Nat) : ValidRune (decodeRune s).1 = true := by
  rcases s with _ | ⟨b, t⟩
  · decide
  · rcases decodeRune_cases b t with ⟨h0, h⟩ | ⟨h0, h⟩ | ⟨s1, r, ht, g1, g2, g3, g4, h⟩ |
      ⟨s1, s2, r, ht, g1, g2, h1, h2, g5, g6, h⟩ |
      ⟨s1, s2, s3, r, ht, g1, g2, h1, h2, g5, g6, g7, g8, h⟩ <;>
      rw [h] <;> simp only [RuneError, ValidRune, decide_eq_true_eq]
    · omega
    · omega
    · omega
    · unfold acceptLo at h1; unfold acceptHi at h2
      split_ifs at h1 h2 <;> omega
    · unfold acceptLo at h1; unfold acceptHi at h2
      split_ifs at h1 h2 <;> omega

theorem decodeRune_append (b : Nat) (t s : List Nat)
    (h : ¬ ((decodeRune (b :: t)).1 = RuneError ∧ (decodeRune (b :: t)).2 = 1)) :
    decodeRune (b :: (t ++ s)) = decodeRune (b :: t) := by
  rcases decodeRune_cases b t with ⟨h1, e⟩ | ⟨_, e⟩ | ⟨s1, r, ht, h1, h2, h3, h4, e⟩ |
    ⟨s1, s2, r, ht, h1, h2, h3, h4, h5, h6, e⟩ |
    ⟨s1, s2, s3, r, ht, h1, h2, h3, h4, h5, h6, h7, h8, e⟩
  · rw [e, decodeRune_ascii b _ h1]
  · rw [e] at h; simp at h
  · subst ht
    rw [e]
    have a1 : ¬ b < 0x80 := by omega
    have a2 : ¬ b < 0xC2 := by omega
    simp [decodeRune, a1, a2, h2, h3, h4]
  · subst ht
    rw [e]
    have a1 : ¬ b < 0x80 := by omega
    have a2 : ¬ b < 0xC2 := by omega
    have a3 : ¬ b < 0xE0 := by omega
    simp [decodeRune, a1, a2, a3, h2, h3, h4, h5, h6]
  · subst ht
    rw [e]
    have a1 : ¬ b < 0x80 := by omega
    have a2 : ¬ b < 0xC2 := by omega
    have a3 : ¬ b < 0xE0 := by omega
    have a4 : ¬ b < 0xF0 := by omega
    simp [decodeRune, a1, a2, a3, a4, h2, h3, h4, h5, h6, h7, h8]


theorem decodeRune_two (n : Nat) (h1 : 0x80 ≤ n) (h2 : n < 0x800) (r : List Nat) :
    decodeRune ((0xC0 + n / 64) :: (0x80 + n % 64) :: r) = ((n : Int), 2) := by
  have a1 : ¬ (0xC0 + n / 64 < 0x80) := by omega
  have a2 : ¬ (0xC0 + n / 64 < 0xC2) := by omega
  have a3 : 0xC0 + n / 64 < 0xE0 := by omega
  have c1 : 0x80 ≤ 0x80 + n % 64 ∧ 0x80 + n % 64 ≤ 0xBF := by omega
  have v : (0xC0 + n / 64) % 32 * 64 + (0x80 + n % 64) % 64 = n := by omega
  simp only [decodeRune, a1, a2, a3, c1, if_true, if_false, and_self, v]

theorem decodeRune_three (n : Nat) (h1 : 0x800 ≤ n) (h2 : n < 0x10000)
    (h3 : n < 0xD800 ∨ 0xDFFF < n) (r : List Nat) :
    decodeRune ((0xE0 + n / 4096) :: (0x80 + n / 64 % 64) :: (0x80 + n % 64) :: r)
      = ((n : Int), 3) := by
  have a1 : ¬ (0xE0 + n / 4096 < 0x80) := by omega
  have a2 : ¬ (0xE0 + n / 4096 < 0xC2) := by omega
  have a3 : ¬ (0xE0 + n / 4096 < 0xE0) := by omega
  have a4 : 0xE0 + n / 4096 < 0xF0 := by omega
  have c1 : acceptLo (0xE0 + n / 4096) ≤ 0x80 + n / 64 % 64 ∧
      0x80 + n / 64 % 64 ≤ acceptHi (0xE0 + n / 4096) := by
    unfold acceptLo acceptHi
    split_ifs <;> omega
  have c2 : 0x80 ≤ 0x80 + n % 64 ∧ 0x80 + n % 64 ≤ 0xBF := by omega
  have v : (0xE0 + n / 4096) % 16 * 4096 + (0x80 + n / 64 % 64) % 64 * 64
      + (0x80 + n % 64) % 64 = n := by omega
  simp only [decodeRune, a1, a2, a3, a4, c1, c2, if_true, if_false, and_self, v]

theorem decodeRune_four (n : Nat) (h1 : 0x10000 ≤ n) (h2 : n ≤ 0x10FFFF) (r : List Nat) :
    decodeRune ((0xF0 + n / 262144) :: (0x80 + n / 4096 % 64) :: (0x80 + n / 64 % 64) ::
        (0x80 + n % 64) :: r) = ((n : Int), 4) := by
  have a1 : ¬ (0xF0 + n / 262144 < 0x80) := by omega
  have a2 : ¬ (0xF0 + n / 262144 < 0xC2) := by omega
  have a3 : ¬ (0xF0 + n / 262144 < 0xE0) := by omega
  have a4 : ¬ (0xF0 + n / 262144 < 0xF0) := by omega
  have a5 : 0xF0 + n / 262144 < 0xF5 := by omega
  have c1 : acceptLo (0xF0 + n / 262144) ≤ 0x80 + n / 4096 % 64 ∧
      0x80 + n / 4096 % 64 ≤ acceptHi (0xF0 + n / 262144) := by
    unfold acceptLo acceptHi
    split_ifs <;> omega
  have c2 : 0x80 ≤ 0x80 + n / 64 % 64 ∧ 0x80 + n / 64 % 64 ≤ 0xBF := by omega
  have c3 : 0x80 ≤ 0x80 + n % 64 ∧ 0x80 + n % 64 ≤ 0xBF := by omega
  have v : (0xF0 + n / 262144) % 8 * 262144 + (0x80 + n / 4096 % 64) % 64 * 4096
      + (0x80 + n / 64 % 64) % 64 * 64 + (0x80 + n % 64) % 64 = n := by omega
  simp only [decodeRune, a1, a2, a3, a4, a5, c1, c2, c3, if_true, if_false, and_self, v]

/-- Decoding what `encodeRune` wrote gives the rune back. -/
theorem decodeRune_encodeRune (c : Int) (hv : ValidRune c = true) (r : List Nat) :
    decodeRune (encodeRune c ++ r) = (c, (encodeRune c).length) := by
  have hv2 : (0 ≤ c ∧ c < 0xD800) ∨ (0xDFFF < c ∧ c ≤ 0x10FFFF) := by
    simpa [ValidRune] using hv
  have hc : ((c.toNat : Nat) : Int) = c := Int.toNat_of_nonneg (by omega)
  unfold encodeRune
  rw [hv]
  simp only [if_true]
  by_cases h1 : c < 0x80
  · have hb : c.toNat < 0x80 := by omega
    simp only [h1, if_true, List.singleton_append, List.length_singleton]
    rw [decodeRune_ascii _ _ hb, hc]
  · by_cases h2 : c < 0x800
    · simp only [h1, h2, if_true, if_false, List.cons_append, List.nil_append,
        List.length_cons, List.length_nil]
      rw [decodeRune_two c.toNat (by omega) (by omega), hc]
    · by_cases h3 : c < 0x10000
      · simp only [h1, h2, h3, if_true, if_false, List.cons_append, List.nil_append,
          List.length_cons, List.length_nil]
        rw [decodeRune_three c.toNat (by omega) (by omega) (by omega), hc]
      · simp only [h1, h2, h3, if_false, List.cons_append, List.nil_append,
          List.length_cons, List.length_nil]
        rw [decodeRune_four c.toNat (by omega) (by omega), hc]

/-- A decoded rune other than `RuneError` was read from its own encoding. -/
theorem encodeRune_decodeRune (b : Nat) (t : List Nat)
    (h : (decodeRune (b :: t)).1 ≠ RuneError) :
    encodeRune (decodeRune (b :: t)).1 ++ (b :: t).drop (decodeRune (b :: t)).2 = b :: t := by
  have hlo := acceptLo_ge b
  have hhi := acceptHi_le b
  have hv := decodeRune_valid (b :: t)
  rcases decodeRune_cases b t with ⟨h0, e⟩ | ⟨h0, e⟩ | ⟨s1, r, ht, h1, h2, h3, h4, e⟩ |
    ⟨s1, s2, r, ht, h1, h2, h3, h4, h5, h6, e⟩ |
    ⟨s1, s2, s3, r, ht, h1, h2, h3, h4, h5, h6, h7, h8, e⟩
  · rw [e] at hv ⊢
    have hlt : ((b : Nat) : Int) < 0x80 := by omega
    simp [encodeRune, hv, hlt]
  · rw [e] at h
    exact absurd rfl h
  · subst ht
    rw [e] at hv ⊢
    have g1 : ¬ (((b % 32 * 64 + s1 % 64 : Nat) : Int) < 0x80) := by omega
    have g2 : (((b % 32 * 64 + s1 % 64 : Nat) : Int) < 0x800) := by omega
    simp only [encodeRune, hv, g1, g2, if_true, if_false, Int.toNat_ofNat]
    have v1 : 0xC0 + (b % 32 * 64 + s1 % 64) / 64 = b := by omega
    have v2 : 0x80 + (b % 32 * 64 + s1 % 64) % 64 = s1 := by omega
    rw [v1, v2]
    rfl
  · subst ht
    rw [e] at hv ⊢
    have bl : acceptLo b ≤ s1 → 0xE0 < b ∨ 0xA0 ≤ s1 := by
      unfold acceptLo; split_ifs <;> omega
    have g1 : ¬ (((b % 16 * 4096 + s1 % 64 * 64 + s2 % 64 : Nat) : Int) < 0x80) := by omega
    have g2 : ¬ (((b % 16 * 4096 + s1 % 64 * 64 + s2 % 64 : Nat) : Int) < 0x800) := by omega
    have g3 : (((b % 16 * 4096 + s1 % 64 * 64 + s2 % 64 : Nat) : Int) < 0x10000) := by omega
    simp only [encodeRune, hv, g1, g2, g3, if_true, if_false, Int.toNat_ofNat]
    have v1 : 0xE0 + (b % 16 * 4096 + s1 % 64 * 64 + s2 % 64) / 4096 = b := by omega
    have v2 : 0x80 + (b % 16 * 4096 + s1 % 64 * 64 + s2 % 64) / 64 % 64 = s1 := by omega
    have v3 : 0x80 + (b % 16 * 4096 + s1 % 64 * 64 + s2 % 64) % 64 = s2 := by omega
    rw [v1, v2, v3]
    rfl
  · subst ht
    rw [e] at hv ⊢
    have bl : acceptLo b ≤ s1 → 0xF0 < b ∨ 0x90 ≤ s1 := by
      unfold acceptLo; split_ifs <;> omega
    have g1 : ¬ (((b % 8 * 262144 + s1 % 64 * 4096 + s2 % 64 * 64 + s3 % 64 : Nat) : Int)
        < 0x80) := by omega
    have g2 : ¬ (((b % 8 * 262144 + s1 % 64 * 4096 + s2 % 64 * 64 + s3 % 64 : Nat) : Int)
        < 0x800) := by omega
    have g3 : ¬ (((b % 8 * 262144 + s1 % 64 * 4096 + s2 % 64 * 64 + s3 % 64 : Nat) : Int)
        < 0x10000) := by omega
    simp only [encodeRune, hv, g1, g2, g3, if_true, if_false, Int.toNat_ofNat]
    have v1 : 0xF0 + (b % 8 * 262144 + s1 % 64 * 4096 + s2 % 64 * 64 + s3 % 64) / 262144
        = b := by omega
    have v2 : 0x80 + (b % 8 * 262144 + s1 % 64 * 4096 + s2 % 64 * 64 + s3 % 64) / 4096 % 64
        = s1 := by omega
    have v3 : 0x80 + (b % 8 * 262144 + s1 % 64 * 4096 + s2 % 64 * 64 + s3 % 64) / 64 % 64
        = s2 := by omega
    have v4 : 0x80 + (b % 8 * 262144 + s1 % 64 * 4096 + s2 % 64 * 64 + s3 % 64) % 64
        = s3 := by omega
    rw [v1, v2, v3, v4]
    rfl


theorem succIndex_ge (i : Int) (h : -1 ≤ i) : -1 ≤ succIndex i := by
  unfold succIndex; split_ifs <;> omega

theorem succIndex_eq_neg_one_iff (i : Int) (h : -1 ≤ i) : succIndex i = -1 ↔ i = -1 := by
  unfold succIndex; split_ifs <;> omega

theorem rangeIndexAux_ge (c : Int) (s : List Nat) : ∀ k, -1 ≤ rangeIndexAux c k s := by
  induction s with
  | nil => intro k; cases k <;> simp [rangeIndexAux]
  | cons b t ih =>
    intro k
    cases k with
    | zero =>
      simp only [rangeIndexAux]
      split_ifs
      · omega
      · exact succIndex_ge _ (ih _)
    | succ k =>
      simp only [rangeIndexAux]
      exact succIndex_ge _ (ih _)

theorem rangeIndexAux_eq_neg_one_iff (c : Int) (s : List Nat) :
    ∀ k, rangeIndexAux c k s = -1 ↔ c ∉ toRunesAux k s := by
  induction s with
  | nil => intro k; cases k <;> simp [rangeIndexAux, toRunesAux]
  | cons b t ih =>
    intro k
    cases k with
    | zero =>
      simp only [rangeIndexAux, toRunesAux, List.mem_cons, not_or]
      by_cases h : (decodeRune (b :: t)).1 = c
      · simp [h]
      · have h2 : ¬ c = (decodeRune (b :: t)).1 := fun e => h e.symm
        simp only [h, h2, if_false, not_false_eq_true, true_and]
        rw [succIndex_eq_neg_one_iff _ (rangeIndexAux_ge c t _)]
        exact ih _
    | succ k =>
      simp only [rangeIndexAux, toRunesAux]
      rw [succIndex_eq_neg_one_iff _ (rangeIndexAux_ge c t _)]
      exact ih _

theorem rangeIndexAux_invalid (c : Int) (hv : ValidRune c = false) (s : List Nat) :
    ∀ k, rangeIndexAux c k s = -1 := by
  intro k
  rw [rangeIndexAux_eq_neg_one_iff]
  have key : ∀ (s : List Nat) (k : Nat), ∀ r ∈ toRunesAux k s, ValidRune r = true := by
    intro s
    induction s with
    | nil => intro k r hr; cases k <;> simp [toRunesAux] at hr
    | cons b t ih =>
      intro k r hr
      cases k with
      | zero =>
        simp only [toRunesAux, List.mem_cons] at hr
        rcases hr with hr | hr
        · rw [hr]; exact decodeRune_valid _
        · exact ih _ r hr
      | succ k =>
        simp only [toRunesAux] at hr
        exact ih _ r hr
  intro hmem
  have := key s k c hmem
  rw [hv] at this
  exact absurd this (by decide)

theorem IndexByte_eq_rangeIndexAux (c : Int) (h0 : 0 ≤ c) (h1 : c < 0x80) (s : List Nat) :
    ∀ k, (∀ x ∈ s.take k, 0x80 ≤ x ∧ x ≤ 0xBF) →
      IndexByte s c.toNat = rangeIndexAux c k s := by
  induction s with
  | nil => intro k _; cases k <;> simp [IndexByte, rangeIndexAux]
  | cons b t ih =>
    intro k hk
    cases k with
    | zero =>
      simp only [IndexByte, rangeIndexAux]
      have hrec := ih ((decodeRune (b :: t)).2 - 1) (decodeRune_cont b t)
      by_cases hb : b < 0x80
      · rw [decodeRune_ascii b t hb] at hrec ⊢
        by_cases e : b = c.toNat
        · have e2 : (((b : Int), 1) : Int × Nat).1 = c := by
            show (b : Int) = c
            omega
          rw [if_pos e, if_pos e2]
        · have e2 : ¬ (b : Int) = c := by omega
          simp only [e, e2, if_false]
          rw [hrec]
      · have hh := decodeRune_high b t (by omega)
        have e : ¬ b = c.toNat := by omega
        have e2 : ¬ (decodeRune (b :: t)).1 = c := by omega
        simp only [e, e2, if_false]
        rw [hrec]
    | succ k =>
      have hb := hk b (by simp)
      have e : ¬ b = c.toNat := by omega
      simp only [IndexByte, rangeIndexAux, e, if_false]
      rw [ih k (fun x hx => hk x (by simp [hx]))]


theorem encodeRune_head (c : Int) (hv : ValidRune c = true) (h1 : 0x80 ≤ c) :
    ∃ h r, encodeRune c = h :: r ∧ 0xC0 ≤ h := by
  have a1 : ¬ c < 0x80 := by omega
  unfold encodeRune
  rw [hv]
  simp only [if_true, a1, if_false]
  split_ifs
  · exact ⟨_, _, rfl, by omega⟩
  · exact ⟨_, _, rfl, by omega⟩
  · exact ⟨_, _, rfl, by omega⟩

theorem Index_eq_rangeIndexAux (c : Int) (hv : ValidRune c = true) (h1 : 0x80 ≤ c)
    (hne : c ≠ RuneError) (s : List Nat) :
    ∀ k, (∀ x ∈ s.take k, 0x80 ≤ x ∧ x ≤ 0xBF) →
      Index s (encodeRune c) = rangeIndexAux c k s := by
  obtain ⟨hd, tl, henc, hhd⟩ := encodeRune_head c hv h1
  induction s with
  | nil => intro k _; cases k <;> simp [Index, rangeIndexAux, henc]
  | cons b t ih =>
    intro k hk
    cases k with
    | zero =>
      simp only [Index, rangeIndexAux]
      have hrec := ih ((decodeRune (b :: t)).2 - 1) (decodeRune_cont b t)
      by_cases hp : (encodeRune c).isPrefixOf (b :: t) = true
      · obtain ⟨r, hr⟩ := List.isPrefixOf_iff_prefix.mp hp
        have hd2 := decodeRune_encodeRune c hv r
        rw [hr] at hd2
        rw [if_pos hp, hd2]
        simp
      · have hdec : ¬ (decodeRune (b :: t)).1 = c := by
          intro e
          have hne2 : (decodeRune (b :: t)).1 ≠ RuneError := by rw [e]; exact hne
          have hrt := encodeRune_decodeRune b t hne2
          rw [e] at hrt
          exact hp (List.isPrefixOf_iff_prefix.mpr ⟨_, hrt⟩)
        rw [if_neg hp, if_neg hdec, hrec]
    | succ k =>
      have hb := hk b (by simp)
      have hp : ¬ (encodeRune c).isPrefixOf (b :: t) = true := by
        intro hp
        obtain ⟨r, hr⟩ := List.isPrefixOf_iff_prefix.mp hp
        rw [henc] at hr
        simp only [List.cons_append, List.cons.injEq] at hr
        omega
      simp only [Index, rangeIndexAux]
      rw [if_neg hp, ih k (fun x hx => hk x (by simp [hx]))]

/-- `strings.IndexRune` is the byte index at which the `range` loop first meets the rune. -/
theorem IndexRune_eq_rangeIndexAux (s : List Nat) (c : Int) :
    IndexRune s c = rangeIndexAux c 0 s := by
  unfold IndexRune
  by_cases h1 : 0 ≤ c ∧ c < 0x80
  · rw [if_pos h1]
    exact IndexByte_eq_rangeIndexAux c h1.1 h1.2 s 0 (by simp)
  · rw [if_neg h1]
    by_cases h2 : c = RuneError
    · rw [if_pos h2, h2]
    · rw [if_neg h2]
      by_cases h3 : ValidRune c = false
      · rw [if_pos h3, rangeIndexAux_invalid c h3 s 0]
      · rw [if_neg h3]
        have hv : ValidRune c = true := by simpa using h3
        have hv2 : (0 ≤ c ∧ c < 0xD800) ∨ (0xDFFF < c ∧ c ≤ 0x10FFFF) := by
          simpa [ValidRune] using hv
        exact Index_eq_rangeIndexAux c hv (by omega) h2 s 0 (by simp)


theorem toRunesAux_length_le (s : List Nat) : ∀ k, (toRunesAux k s).length ≤ s.length := by
  induction s with
  | nil => intro k; cases k <;> simp [toRunesAux]
  | cons b t ih =>
    intro k
    cases k with
    | zero =>
      simp only [toRunesAux, List.length_cons]
      have := ih ((decodeRune (b :: t)).2 - 1)
      omega
    | succ k =>
      simp only [toRunesAux, List.length_cons]
      have := ih k
      omega

theorem rangeIndexAux_lt (c : Int) (s : List Nat) :
    ∀ k, rangeIndexAux c k s < (s.length : Int) ∨ (s = [] ∧ rangeIndexAux c k s = -1) := by
  induction s with
  | nil => intro k; cases k <;> simp [rangeIndexAux]
  | cons b t ih =>
    intro k
    left
    have hstep : ∀ j, succIndex (rangeIndexAux c j t) < ((b :: t).length : Int) := by
      intro j
      have h1 := ih j
      have h2 := rangeIndexAux_ge c t j
      simp only [List.length_cons, Nat.cast_add, Nat.cast_one]
      unfold succIndex
      split_ifs
      · omega
      · rcases h1 with h1 | ⟨_, h1⟩
        · omega
        · omega
    cases k with
    | zero =>
      simp only [rangeIndexAux]
      split_ifs
      · simp only [List.length_cons, Nat.cast_add, Nat.cast_one]; omega
      · exact hstep _
    | succ k =>
      simp only [rangeIndexAux]
      exact hstep _

theorem toRunesAux_append (q s : List Nat) :
    ∀ k, validAux k q = true → k ≤ q.length →
      toRunesAux k (q ++ s) = toRunesAux k q ++ toRunesAux 0 s := by
  induction q with
  | nil =>
    intro k _ hk
    have : k = 0 := by simpa using hk
    subst this
    simp [toRunesAux]
  | cons b t ih =>
    intro k hv hk
    cases k with
    | zero =>
      simp only [validAux] at hv
      split_ifs at hv with hbad
      have hw := decodeRune_width b t
      have hd := decodeRune_append b t s hbad
      simp only [List.cons_append, toRunesAux, List.append_eq, hd, List.cons.injEq, true_and]
      simp only [List.length_cons] at hw
      exact ih _ hv (by omega)
    | succ k =>
      simp only [validAux] at hv
      simp only [List.cons_append, toRunesAux, List.append_eq]
      exact ih k hv (by simpa using hk)

theorem rangeIndexAux_append_of_not_mem (c : Int) (q s : List Nat) :
    ∀ k, validAux k q = true → k ≤ q.length → c ∉ toRunesAux k q →
      rangeIndexAux c k (q ++ s) =
        if rangeIndexAux c 0 s = -1 then -1 else (q.length : Int) + rangeIndexAux c 0 s := by
  induction q with
  | nil =>
    intro k _ hk _
    have : k = 0 := by simpa using hk
    subst this
    simp only [List.nil_append, List.length_nil, Nat.cast_zero, zero_add]
    split_ifs with h
    · exact h
    · rfl
  | cons b t ih =>
    intro k hv hk hc
    have hsucc : ∀ j, rangeIndexAux c j (t ++ s) =
        (if rangeIndexAux c 0 s = -1 then -1 else (t.length : Int) + rangeIndexAux c 0 s) →
        succIndex (rangeIndexAux c j (t ++ s)) =
          if rangeIndexAux c 0 s = -1 then -1
          else ((b :: t).length : Int) + rangeIndexAux c 0 s := by
      intro j hj
      have hge := rangeIndexAux_ge c s 0
      rw [hj]
      simp only [List.length_cons, Nat.cast_add, Nat.cast_one]
      unfold succIndex
      split_ifs <;> omega
    cases k with
    | zero =>
      simp only [validAux] at hv
      split_ifs at hv with hbad
      have hw := decodeRune_width b t
      have hd := decodeRune_append b t s hbad
      simp only [toRunesAux, List.mem_cons, not_or] at hc
      have hne : ¬ (decodeRune (b :: t)).1 = c := fun e => hc.1 e.symm
      simp only [List.cons_append, rangeIndexAux, List.append_eq, hd, hne, if_false]
      simp only [List.length_cons] at hw
      exact hsucc _ (ih _ hv (by omega) hc.2)
    | succ k =>
      simp only [validAux] at hv
      simp only [toRunesAux] at hc
      simp only [List.cons_append, rangeIndexAux, List.append_eq]
      exact hsucc _ (ih k hv (by simpa using hk) hc)

theorem rangeIndexAux_append_of_mem (c : Int) (q s : List Nat) :
    ∀ k, validAux k q = true → k ≤ q.length → c ∈ toRunesAux k q →
      rangeIndexAux c k (q ++ s) = rangeIndexAux c k q := by
  induction q with
  | nil => intro k _ _ hc; cases k <;> simp [toRunesAux] at hc
  | cons b t ih =>
    intro k hv hk hc
    cases k with
    | zero =>
      simp only [validAux] at hv
      split_ifs at hv with hbad
      have hw := decodeRune_width b t
      have hd := decodeRune_append b t s hbad
      simp only [toRunesAux, List.mem_cons] at hc
      simp only [List.cons_append, rangeIndexAux, List.append_eq, hd]
      by_cases he : (decodeRune (b :: t)).1 = c
      · simp [he]
      · have hc2 : c ∈ toRunesAux ((decodeRune (b :: t)).2 - 1) t := by
          rcases hc with hc | hc
          · exact absurd hc.symm he
          · exact hc
        simp only [List.length_cons] at hw
        simp only [he, if_false]
        rw [ih _ hv (by omega) hc2]
    | succ k =>
      simp only [validAux] at hv
      simp only [toRunesAux] at hc
      simp only [List.cons_append, rangeIndexAux, List.append_eq]
      rw [ih k hv (by simpa using hk) hc]

/-- A byte string whose runes are all ASCII has only ASCII bytes. -/
theorem bytes_ascii_of_runes (q : List Nat) (h : ∀ r ∈ toRunesAux 0 q, 0 ≤ r ∧ r < 128) :
    ∀ b ∈ q, b < 128 := by
  induction q with
  | nil => intro b hb; simp at hb
  | cons x t ih =>
    have hx : x < 128 := by
      by_contra hx
      have h1 := decodeRune_high x t (by omega)
      have h2 := h (decodeRune (x :: t)).1 (by simp [toRunesAux])
      omega
    have hd := decodeRune_ascii x t hx
    have ht : ∀ r ∈ toRunesAux 0 t, 0 ≤ r ∧ r < 128 := by
      intro r hr
      apply h
      simp only [toRunesAux, hd, List.mem_cons]
      exact Or.inr hr
    intro b hb
    rcases List.mem_cons.mp hb with e | e
    · rw [e]; exact hx
    · exact ih ht b e

theorem ascii_valid_and_length (q : List Nat) (h : ∀ b ∈ q, b < 128) :
    validAux 0 q = true ∧ (toRunesAux 0 q).length = q.length := by
  induction q with
  | nil => simp [validAux, toRunesAux]
  | cons x t ih =>
    have hx : x < 128 := h x (by simp)
    have hd := decodeRune_ascii x t hx
    have ht := ih (fun b hb => h b (List.mem_cons_of_mem x hb))
    have hne : ¬ ((x : Int) = RuneError) := by
      unfold RuneError; omega
    simp only [validAux, toRunesAux, hd, List.length_cons, hne, false_and, if_false]
    exact ⟨ht.1, by rw [show 1 - 1 = 0 from rfl, ht.2]⟩

/-! ## The classifier -/

/-- Away from the escaper and the runes of a valid UTF-8 quote string, `check` is
membership in the runes of `splitors`. -/
theorem check_of_not_quote (quotes splitors : List Nat) (escaper : Rune) (lenient : Bool)
    (c : Rune) (hv : ValidString quotes = true) (he : c ≠ escaper)
    (hq : c ∉ toRunes quotes) :
    (NewArgParser quotes splitors escaper lenient).check c =
      if c ∈ toRunes splitors then some state.spl else none := by
  have h1 := rangeIndexAux_append_of_not_mem c quotes splitors 0 hv (Nat.zero_le _) hq
  have h2 := rangeIndexAux_eq_neg_one_iff c splitors 0
  have h3 := toRunesAux_length_le quotes 0
  have h4 := rangeIndexAux_ge c splitors 0
  have hb : (NewArgParser quotes splitors escaper lenient).boundary
      = ((toRunesAux 0 quotes).length : Int) := rfl
  have hs : (NewArgParser quotes splitors escaper lenient).symbols = quotes ++ splitors := rfl
  have hne : ¬ c = (NewArgParser quotes splitors escaper lenient).escaper := he
  unfold ArgParser.check
  rw [if_neg hne]
  simp only [hs, hb, IndexRune_eq_rangeIndexAux, h1]
  by_cases hm : c ∈ toRunes splitors
  · have hn : ¬ rangeIndexAux c 0 splitors = -1 := fun e => (h2.mp e) hm
    have hlt : ¬ ((quotes.length : Int) + rangeIndexAux c 0 splitors
        < ((toRunesAux 0 quotes).length : Int)) := by omega
    have hn2 : ¬ ((quotes.length : Int) + rangeIndexAux c 0 splitors = -1) := by omega
    simp only [hm, hn, hn2, if_true, if_false, hlt]
  · have hn : rangeIndexAux c 0 splitors = -1 := h2.mpr hm
    simp only [hm, hn, if_true, if_false]

theorem check_esc_iff (ap : ArgParser) (c : Rune) :
    ap.check c = some state.esc ↔ c = ap.escaper := by
  unfold ArgParser.check
  by_cases h : c = ap.escaper
  · simp [h]
  · simp only [h, if_false, iff_false]
    split_ifs <;> simp

/-! ## The scanning loop -/

theorem fin_eq (s : PState) :
    fin s = { args := flushed s, scopes := s.scopes.tail, buf := [] } := by
  unfold fin flushed Pop
  by_cases h : s.buf = [] <;> simp [h]

theorem scan_append (ap : ArgParser) (a b : List Rune) :
    scan ap (a ++ b) = b.foldl (step ap) (scan ap a) := by
  simp [scan, List.foldl_append]

theorem step_literal (ap : ArgParser) (s : PState) (c : Rune) (h : ap.check c = none) :
    step ap s c = acc c s := by
  simp [step, h]

theorem foldl_literal (ap : ArgParser) (t : List Rune) (h : ∀ x ∈ t, ap.check x = none) :
    ∀ s : PState, t.foldl (step ap) s = { s with buf := s.buf ++ t } := by
  induction t with
  | nil => intro s; simp
  | cons x xs ih =>
    intro s
    have hx := h x (List.mem_cons_self x xs)
    have hxs : ∀ y ∈ xs, ap.check y = none := fun y hy => h y (List.mem_cons_of_mem x hy)
    simp [List.foldl_cons, step_literal ap s x hx, ih hxs, acc]

theorem step_in_quote (ap : ArgParser) (s : PState) (c q : Rune) (r : List Scope)
    (hs : s.scopes = Scope.quote q :: r) (hq : c ≠ q) (he : c ≠ ap.escaper) :
    step ap s c = acc c s := by
  have hne : ap.check c ≠ some state.esc := fun h => he ((check_esc_iff ap c).mp h)
  rcases h : ap.check c with _ | t
  · exact step_literal ap s c h
  · cases t with
    | esc => exact absurd h hne
    | spl => simp [step, h, hs, Peek]
    | qut => simp [step, h, hs, Peek, hq]

theorem foldl_in_quote (ap : ArgParser) (q : Rune) (r : List Scope) (t : List Rune)
    (h : ∀ x ∈ t, x ≠ q ∧ x ≠ ap.escaper) :
    ∀ s : PState, s.scopes = Scope.quote q :: r →
      t.foldl (step ap) s = { s with buf := s.buf ++ t } := by
  induction t with
  | nil => intro s _; simp
  | cons x xs ih =>
    intro s hs
    have hx := h x (List.mem_cons_self x xs)
    have hxs : ∀ y ∈ xs, y ≠ q ∧ y ≠ ap.escaper :=
      fun y hy => h y (List.mem_cons_of_mem x hy)
    rw [List.foldl_cons, step_in_quote ap s x q r hs hx.1 hx.2, ih hxs (acc x s) (by simp [acc, hs])]
    simp [acc]

theorem step_shape (ap : ArgParser) (s : PState) (c : Rune) (h : Shape s.scopes) :
    Shape (step ap s c).scopes := by
  rcases hc : ap.check c with _ | t
  · rw [step_literal ap s c hc]
    simpa [acc] using h
  · rcases h with h | ⟨q, h⟩ | h | ⟨q, h⟩ <;> cases t <;>
      simp [step, hc, h, Peek, Pop, Push, escape, acc, pushScope, fin, Shape] <;>
      split_ifs <;> simp

theorem scan_shape (ap : ArgParser) (text : List Rune) : Shape (scan ap text).scopes := by
  have key : ∀ (t : List Rune) (s : PState), Shape s.scopes → Shape (t.foldl (step ap) s).scopes := by
    intro t
    induction t with
    | nil => intro s hs; simpa using hs
    | cons x xs ih => intro s hs; exact ih _ (step_shape ap s x hs)
  exact key text initState (by simp [initState, Shape, Push])

/-! ## The end of `Parse` -/

theorem finish_spl (ap : ArgParser) (s : PState) (hs : s.scopes = [Scope.st state.spl]) :
    finish ap s = (flushed s, none) := by
  cases hl : ap.lenient <;> simp [finish, hs, hl, fin_eq, Pop, flushed]

theorem finish_lenient (ap : ArgParser) (s : PState) (hl : ap.lenient = true)
    (hs : s.scopes ≠ []) : finish ap s = (flushed s, none) := by
  simp [finish, hs, hl, fin_eq]

theorem finish_strict_quote (ap : ArgParser) (s : PState) (hl : ap.lenient = false)
    (q : Rune) (r : List Scope) (hs : s.scopes = Scope.quote q :: r) :
    finish ap s = ([], some errUnfinishedQuote) := by
  simp [finish, hs, hl, Pop, isQuote]

theorem finish_strict_esc (ap : ArgParser) (s : PState) (hl : ap.lenient = false)
    (r : List Scope) (hs : s.scopes = Scope.st state.esc :: r) :
    finish ap s = ([], some errUnfinishedEscape) := by
  simp [finish, hs, hl, Pop, isQuote]

/-! ## Text without quotes and escapes -/

theorem modifyHead_nil_append (L : List (List Rune)) :
    L.modifyHead (fun t => ([] : List Rune) ++ t) = L := by
  cases L <;> simp

theorem modifyHead_append_cons (b : List Rune) (x : Rune) (L : List (List Rune)) :
    (L.modifyHead (List.cons x)).modifyHead (fun t => b ++ t)
      = L.modifyHead (fun t => (b ++ [x]) ++ t) := by
  cases L <;> simp

theorem step_delims (quotes splitors : List Nat) (escaper : Rune) (lenient : Bool)
    (s : PState) (c : Rune) (hv : ValidString quotes = true) (he : c ≠ escaper)
    (hq : c ∉ toRunes quotes) (hs : s.scopes = [Scope.st state.spl]) :
    step (NewArgParser quotes splitors escaper lenient) s c =
      if c ∈ toRunes splitors then { args := flushed s, scopes := [Scope.st state.spl], buf := [] }
      else { s with buf := s.buf ++ [c] } := by
  have hc := check_of_not_quote quotes splitors escaper lenient c hv he hq
  by_cases hm : c ∈ toRunes splitors
  · simp only [hm, if_true] at hc ⊢
    simp [step, hc, hs, Peek, escape, fin_eq, pushScope, Push]
  · simp only [hm, if_false] at hc ⊢
    rw [step_literal _ s c hc, acc]

theorem foldl_delims (quotes splitors : List Nat) (escaper : Rune) (lenient : Bool)
    (text : List Rune) (hv : ValidString quotes = true)
    (h : ∀ c ∈ text, c ≠ escaper ∧ c ∉ toRunes quotes) :
    ∀ s : PState, s.scopes = [Scope.st state.spl] →
      (text.foldl (step (NewArgParser quotes splitors escaper lenient)) s).scopes
          = [Scope.st state.spl] ∧
      flushed (text.foldl (step (NewArgParser quotes splitors escaper lenient)) s)
          = s.args ++ (((text.splitOnP (fun c => decide (c ∈ toRunes splitors))).modifyHead
              (fun t => s.buf ++ t)).filter (fun t => decide (t ≠ []))) := by
  induction text with
  | nil =>
    intro s hs
    refine ⟨by simpa using hs, ?_⟩
    by_cases hb : s.buf = [] <;> simp [flushed, hb, List.splitOnP_nil]
  | cons x xs ih =>
    intro s hs
    have hx := h x (List.mem_cons_self x xs)
    have hxs : ∀ y ∈ xs, y ≠ escaper ∧ y ∉ toRunes quotes :=
      fun y hy => h y (List.mem_cons_of_mem x hy)
    rw [List.foldl_cons, step_delims quotes splitors escaper lenient s x hv hx.1 hx.2 hs,
      List.splitOnP_cons]
    by_cases hm : x ∈ toRunes splitors
    · simp only [hm, if_true, decide_True]
      obtain ⟨h1, h2⟩ := ih hxs { args := flushed s, scopes := [Scope.st state.spl], buf := [] } rfl
      refine ⟨h1, ?_⟩
      rw [h2]
      simp only [modifyHead_nil_append, List.modifyHead_cons, List.append_nil]
      by_cases hb : s.buf = [] <;> simp [flushed, hb, List.filter_cons]
    · simp only [hm, if_false, decide_False, Bool.false_eq_true]
      obtain ⟨h1, h2⟩ := ih hxs { s with buf := s.buf ++ [x] } hs
      refine ⟨h1, ?_⟩
      rw [h2, modifyHead_append_cons]

/-! ## Text without the escaper -/

theorem step_no_escaper (ap : ArgParser) (s : PState) (c : Rune) (hc : c ≠ ap.escaper)
    (hs : s.scopes = [Scope.st state.spl] ∨ ∃ q, s.scopes = [Scope.quote q]) :
    (step ap s c).scopes = [Scope.st state.spl] ∨ ∃ q, (step ap s c).scopes = [Scope.quote q] := by
  have hne : ap.check c ≠ some state.esc := fun h => hc ((check_esc_iff ap c).mp h)
  rcases hk : ap.check c with _ | t
  · rw [step_literal ap s c hk]
    simpa [acc] using hs
  · rcases hs with h | ⟨q, h⟩ <;> cases t <;>
      first
      | exact absurd hk hne
      | (simp [step, hk, h, Peek, Pop, Push, escape, acc, pushScope, fin] <;>
          split_ifs <;> simp)

theorem scan_no_escaper (ap : ArgParser) (text : List Rune) (h : ∀ c ∈ text, c ≠ ap.escaper) :
    (scan ap text).scopes = [Scope.st state.spl] ∨
      ∃ q, (scan ap text).scopes = [Scope.quote q] := by
  have key : ∀ (t : List Rune), (∀ c ∈ t, c ≠ ap.escaper) → ∀ s : PState,
      (s.scopes = [Scope.st state.spl] ∨ ∃ q, s.scopes = [Scope.quote q]) →
      ((t.foldl (step ap) s).scopes = [Scope.st state.spl] ∨
        ∃ q, (t.foldl (step ap) s).scopes = [Scope.quote q]) := by
    intro t
    induction t with
    | nil => intro _ s hs; simpa using hs
    | cons x xs ih =>
      intro ht s hs
      exact ih (fun c hc => ht c (List.mem_cons_of_mem x hc)) _
        (step_no_escaper ap s x (ht x (List.mem_cons_self x xs)) hs)
  exact key text h initState (Or.inl (by simp [initState, Push]))

theorem step_escaper_push (ap : ArgParser) (s : PState)
    (hs : s.scopes = [Scope.st state.spl] ∨ ∃ q, s.scopes = [Scope.quote q]) :
    step ap s ap.escaper =
      { args := s.args, scopes := Scope.st state.esc :: s.scopes, buf := s.buf } := by
  have h : ap.check ap.escaper = some state.esc := (check_esc_iff ap ap.escaper).mpr rfl
  rcases hs with hs | ⟨q, hs⟩ <;> simp [step, h, hs, Peek, escape, pushScope, Push]

/-! ## Escapes, quotes and the result slice -/

theorem step_escaped (ap : ArgParser) (s : PState) (c : Rune) (r : List Scope)
    (hs : s.scopes = Scope.st state.esc :: r) (hc : ap.check c ≠ none) :
    step ap s c = { args := s.args, scopes := r, buf := s.buf ++ [c] } := by
  rcases h : ap.check c with _ | t
  · exact absurd h hc
  · cases t <;> simp [step, h, hs, Peek, Pop, escape, acc]

theorem step_escaper_on_spl (ap : ArgParser) (s : PState)
    (hs : s.scopes = [Scope.st state.spl]) :
    step ap s ap.escaper =
      { args := s.args, scopes := [Scope.st state.esc, Scope.st state.spl], buf := s.buf } := by
  have h : ap.check ap.escaper = some state.esc := (check_esc_iff ap ap.escaper).mpr rfl
  simp [step, h, hs, Peek, escape, pushScope, Push]

theorem step_open_quote (ap : ArgParser) (s : PState) (q : Rune)
    (hq : ap.check q = some state.qut) (hs : s.scopes = [Scope.st state.spl]) :
    step ap s q = { args := flushed s, scopes := [Scope.quote q], buf := [] } := by
  simp [step, hq, hs, Peek, escape, pushScope, Push, fin_eq]

theorem step_close_quote (ap : ArgParser) (s : PState) (q : Rune)
    (hq : ap.check q = some state.qut) (hs : s.scopes = [Scope.quote q]) :
    step ap s q = { args := flushed s, scopes := [Scope.st state.spl], buf := [] } := by
  simp [step, hq, hs, Peek, pushScope, Push, fin_eq]

/-- The scan of an opening quote followed by text free of that quote and of the escaper. -/
theorem scan_quote_open (ap : ArgParser) (q : Rune) (t : List Rune)
    (hq : ap.check q = some state.qut) (h : ∀ x ∈ t, x ≠ q ∧ x ≠ ap.escaper) :
    scan ap ([q] ++ t) = { args := [], scopes := [Scope.quote q], buf := t } := by
  rw [scan_append]
  have h0 : scan ap [q] = { args := [], scopes := [Scope.quote q], buf := [] } := by
    simp only [scan, List.foldl_cons, List.foldl_nil]
    rw [step_open_quote ap initState q hq (by simp [initState, Push])]
    simp [flushed, initState]
  rw [h0, foldl_in_quote ap q [] t h _ rfl]
  simp

theorem step_args (ap : ArgParser) (s : PState) (c : Rune) :
    (step ap s c).args = s.args ∨ (step ap s c).args = flushed s := by
  unfold step
  rcases ap.check c with _ | t
  · simp [acc]
  · rcases hp : Peek s.scopes with _ | x
    · cases t <;> simp [escape, pushScope]
    · rcases x with u | q
      · cases t <;> cases u <;> simp [escape, acc, pushScope, fin_eq, flushed]
      · cases t <;> simp only [escape, acc, pushScope, fin_eq] <;>
          (try split_ifs) <;> simp

theorem flushed_nonempty (s : PState) (h : ∀ t ∈ s.args, t ≠ []) : ∀ t ∈ flushed s, t ≠ [] := by
  unfold flushed
  by_cases hb : s.buf = []
  · simpa [hb] using h
  · intro t ht
    simp only [hb, if_false, List.mem_append, List.mem_singleton] at ht
    rcases ht with ht | ht
    · exact h t ht
    · rw [ht]; exact hb

theorem foldl_args_nonempty (ap : ArgParser) (text : List Rune) :
    ∀ s : PState, (∀ t ∈ s.args, t ≠ []) → ∀ t ∈ (text.foldl (step ap) s).args, t ≠ [] := by
  induction text with
  | nil => intro s hs; simpa using hs
  | cons x xs ih =>
    intro s hs
    rw [List.foldl_cons]
    apply ih
    rcases step_args ap s x with h | h
    · rw [h]; exact hs
    · rw [h]; exact flushed_nonempty s hs

theorem finish_args (ap : ArgParser) (s : PState) :
    (finish ap s).1 = [] ∨ (finish ap s).1 = s.args ∨ (finish ap s).1 = flushed s := by
  unfold finish
  simp only [fin_eq]
  split_ifs <;> simp [flushed]

/-! ## The claims -/

/-- C1 (code bug): with the two-byte runes « (171, bytes C2 AB) and » (187, bytes C2 BB)
as the quote string, space and tab as splitors and backslash as escaper, `check` classifies
», a member of the quote set that is not the escaper, as a delimiter (`spl`) and not as a
quote: the byte index 2 that `IndexRune` returns is compared with the rune count 2 of the
quotes. -/
theorem C1_check_multibyte_quote_is_spl :
    toRunes [0xC2, 0xAB, 0xC2, 0xBB] = [171, 187] ∧
    (187 : Rune) ∈ toRunes [0xC2, 0xAB, 0xC2, 0xBB] ∧ (187 : Rune) ≠ 92 ∧
    IndexRune ([0xC2, 0xAB, 0xC2, 0xBB] ++ [32, 9]) 187 = 2 ∧
    (NewArgParser [0xC2, 0xAB, 0xC2, 0xBB] [32, 9] 92 true).boundary = 2 ∧
    (NewArgParser [0xC2, 0xAB, 0xC2, 0xBB] [32, 9] 92 true).check 187 = some state.spl := by
  decide

/-- C2 (counterexample): the quote string is the single byte C3 and the splitors string
the single byte A9, each of them invalid UTF-8 with the one rune U+FFFD; the byte string
`quotes + splitors` is the encoding of é (233).  No rune of the text `aéb` is the escaper
or a rune of the quote string, and é is not a rune of the splitors string, yet `check`
classifies é as a quote and `Parse` returns the tokens `a` and `b` instead of `aéb`. -/
theorem C2_merged_bytes_split_the_text :
    toRunes [0xC3] = [65533] ∧ toRunes [0xA9] = [65533] ∧
    (∀ c ∈ ([97, 233, 98] : List Rune), c ≠ 92 ∧ c ∉ toRunes [0xC3]) ∧
    (NewArgParser [0xC3] [0xA9] 92 true).check 233 = some state.qut ∧
    (NewArgParser [0xC3] [0xA9] 92 true).Parse [97, 233, 98] = ([[97], [98]], none) ∧
    splitDropEmpties (toRunes [0xA9]) [97, 233, 98] = [[97, 233, 98]] ∧
    (NewArgParser [0xC3] [0xA9] 92 true).Parse [97, 233, 98]
      ≠ (splitDropEmpties (toRunes [0xA9]) [97, 233, 98], none) := by
  decide

/-- C2 (amended): when the quote string is valid UTF-8, then for either mode and every text
none of whose runes is the escaper or a rune of the quote string, `Parse` returns no error
and exactly the tokens of "split on delimiter runs, drop empties", the delimiters being the
runes of the splitors string; and for every configuration `Parse` of the empty text returns
no tokens and no error. -/
theorem C2_parse_splits_on_delimiter_runs (quotes splitors : List Nat) (escaper : Rune)
    (lenient : Bool) (text : List Rune) (hv : ValidString quotes = true)
    (h : ∀ c ∈ text, c ≠ escaper ∧ c ∉ toRunes quotes) :
    (NewArgParser quotes splitors escaper lenient).Parse text
        = (splitDropEmpties (toRunes splitors) text, none) ∧
    (NewArgParser quotes splitors escaper lenient).Parse [] = ([], none) := by
  constructor
  · obtain ⟨h1, h2⟩ := foldl_delims quotes splitors escaper lenient text hv h initState
      (by simp [initState, Push])
    unfold ArgParser.Parse scan
    rw [finish_spl _ _ h1, h2]
    have hb : initState.buf = [] := rfl
    have ha : initState.args = [] := rfl
    rw [hb, ha, modifyHead_nil_append]
    rfl
  · cases lenient <;> rfl

/-- Witness of C2: the text `a  b` (two spaces) with the general quotes, splitors and
escaper, strict mode. -/
theorem C2_parse_splits_on_delimiter_runs_witness :
    ValidString [34, 39] = true ∧
    (∀ c ∈ ([97, 32, 32, 98] : List Rune), c ≠ 92 ∧ c ∉ toRunes [34, 39]) ∧
    splitDropEmpties (toRunes [32, 9]) [97, 32, 32, 98] = [[97], [98]] ∧
    ((NewArgParser [34, 39] [32, 9] 92 false).Parse [97, 32, 32, 98]
        = (splitDropEmpties (toRunes [32, 9]) [97, 32, 32, 98], none) ∧
      (NewArgParser [34, 39] [32, 9] 92 false).Parse [] = ([], none)) :=
  ⟨by decide, by decide, by decide,
    C2_parse_splits_on_delimiter_runs [34, 39] [32, 9] 92 false [97, 32, 32, 98]
      (by decide) (by decide)⟩

/-- C3: a parser constructed with `lenient = true` returns a nil error on every text. -/
theorem C3_lenient_never_fails (quotes splitors : List Nat) (escaper : Rune)
    (text : List Rune) :
    ((NewArgParser quotes splitors escaper true).Parse text).2 = none := by
  have hne : (scan (NewArgParser quotes splitors escaper true) text).scopes ≠ [] := by
    rcases scan_shape (NewArgParser quotes splitors escaper true) text with h | ⟨q, h⟩ | h | ⟨q, h⟩ <;>
      simp [h]
  unfold ArgParser.Parse
  rw [finish_lenient _ _ rfl hne]

/-- C4: for a strict parser the outcome of `Parse` is decided by the scope stack that the
scanning loop leaves: a single Delimiter scope gives success with the result slice extended
by the buffer when that is non-empty; a Quote scope on top gives no tokens and the
"unfinished quote" error; an Escape scope on top gives no tokens and the "unfinished
escape" error; and one of these three situations always holds. -/
theorem C4_strict_outcome_by_top_scope (quotes splitors : List Nat) (escaper : Rune)
    (text : List Rune) :
    ((scan (NewArgParser quotes splitors escaper false) text).scopes = [Scope.st state.spl] →
      (NewArgParser quotes splitors escaper false).Parse text =
        (if (scan (NewArgParser quotes splitors escaper false) text).buf = []
          then (scan (NewArgParser quotes splitors escaper false) text).args
          else (scan (NewArgParser quotes splitors escaper false) text).args ++
            [(scan (NewArgParser quotes splitors escaper false) text).buf], none)) ∧
    (isQuote (Peek (scan (NewArgParser quotes splitors escaper false) text).scopes) = true →
      (NewArgParser quotes splitors escaper false).Parse text
        = ([], some errUnfinishedQuote)) ∧
    (Peek (scan (NewArgParser quotes splitors escaper false) text).scopes
        = some (Scope.st state.esc) →
      (NewArgParser quotes splitors escaper false).Parse text
        = ([], some errUnfinishedEscape)) ∧
    ((scan (NewArgParser quotes splitors escaper false) text).scopes = [Scope.st state.spl] ∨
      isQuote (Peek (scan (NewArgParser quotes splitors escaper false) text).scopes) = true ∨
      Peek (scan (NewArgParser quotes splitors escaper false) text).scopes
        = some (Scope.st state.esc)) := by
  have hsh := scan_shape (NewArgParser quotes splitors escaper false) text
  unfold ArgParser.Parse
  generalize scan (NewArgParser quotes splitors escaper false) text = s at hsh ⊢
  rcases hsh with h | ⟨q, h⟩ | h | ⟨q, h⟩
  · have hf := finish_spl (NewArgParser quotes splitors escaper false) s h
    simp [hf, h, flushed, Peek, isQuote]
  · have hf := finish_strict_quote (NewArgParser quotes splitors escaper false) s rfl q [] h
    simp [hf, h, Peek, isQuote]
  · have hf := finish_strict_esc (NewArgParser quotes splitors escaper false) s rfl _ h
    simp [hf, h, Peek, isQuote]
  · have hf := finish_strict_esc (NewArgParser quotes splitors escaper false) s rfl _ h
    simp [hf, h, Peek, isQuote]

/-- Witness of C4: the strict general parser on the text `"a` (an open quote) and on `a\`. -/
theorem C4_strict_outcome_by_top_scope_witness :
    (NewArgParser [34, 39] [32, 9] 92 false).Parse [34, 97] = ([], some errUnfinishedQuote) ∧
    (NewArgParser [34, 39] [32, 9] 92 false).Parse [97, 92] = ([], some errUnfinishedEscape) ∧
    (NewArgParser [34, 39] [32, 9] 92 false).Parse [97, 32, 98] = ([[97], [98]], none) :=
  ⟨(C4_strict_outcome_by_top_scope [34, 39] [32, 9] 92 [34, 97]).2.1 (by decide),
    (C4_strict_outcome_by_top_scope [34, 39] [32, 9] 92 [97, 92]).2.2.1 (by decide),
    (C4_strict_outcome_by_top_scope [34, 39] [32, 9] 92 [97, 32, 98]).1 (by decide)⟩


/-- C5 (code bug): the strict general parser on the text `\a` (backslash, then the literal
rune a) returns no tokens and the "unfinished escape" error although the text does not end
with the escaper: the literal branch of the loop appends the rune without popping the Escape
scope, which is still on top of the stack when the text ends. -/
theorem C5_unfinished_escape_after_literal :
    (NewArgParser [34, 39] [32, 9] 92 false).check 97 = none ∧
    (scan (NewArgParser [34, 39] [32, 9] 92 false) [92, 97]).scopes
      = [Scope.st state.esc, Scope.st state.spl] ∧
    (NewArgParser [34, 39] [32, 9] 92 false).Parse [92, 97] = ([], some errUnfinishedEscape) ∧
    ([92, 97] : List Rune).getLast? ≠ some 92 := by
  decide

/-- C6: in either mode, for texts `s1` and `s2` of runes that `check` classifies as literal
(nil) and every rune `c` that `check` classifies as Escape, Quote or Delimiter,
`Parse (s1 ++ [escaper, c] ++ s2)` succeeds with the single token `s1 ++ [c] ++ s2`. -/
theorem C6_escaped_rune_is_literal (quotes splitors : List Nat) (escaper : Rune)
    (lenient : Bool) (s1 s2 : List Rune) (c : Rune)
    (h1 : ∀ x ∈ s1, (NewArgParser quotes splitors escaper lenient).check x = none)
    (h2 : ∀ x ∈ s2, (NewArgParser quotes splitors escaper lenient).check x = none)
    (hc : (NewArgParser quotes splitors escaper lenient).check c ≠ none) :
    (NewArgParser quotes splitors escaper lenient).Parse (s1 ++ [escaper, c] ++ s2)
      = ([s1 ++ [c] ++ s2], none) := by
  have he : (NewArgParser quotes splitors escaper lenient).escaper = escaper := rfl
  unfold ArgParser.Parse
  rw [scan_append, scan_append]
  have e1 : scan (NewArgParser quotes splitors escaper lenient) s1
      = { args := [], scopes := [Scope.st state.spl], buf := s1 } := by
    unfold scan
    rw [foldl_literal _ s1 h1]
    simp [initState, Push]
  rw [e1, List.foldl_cons, List.foldl_cons, List.foldl_nil]
  have e2 := step_escaper_on_spl (NewArgParser quotes splitors escaper lenient)
    { args := [], scopes := [Scope.st state.spl], buf := s1 } rfl
  rw [he] at e2
  rw [e2, step_escaped _ _ c [Scope.st state.spl] rfl hc, foldl_literal _ s2 h2,
    finish_spl _ _ rfl]
  simp [flushed]

/-- Witness of C6: the general parser on `a\ b` (escaped space). -/
theorem C6_escaped_rune_is_literal_witness :
    (∀ x ∈ ([97] : List Rune), (NewArgParser [34, 39] [32, 9] 92 true).check x = none) ∧
    (∀ x ∈ ([98] : List Rune), (NewArgParser [34, 39] [32, 9] 92 true).check x = none) ∧
    (NewArgParser [34, 39] [32, 9] 92 true).check 32 ≠ none ∧
    (NewArgParser [34, 39] [32, 9] 92 true).Parse ([97] ++ [92, 32] ++ [98])
      = ([[97] ++ [32] ++ [98]], none) :=
  ⟨by decide, by decide, by decide,
    C6_escaped_rune_is_literal [34, 39] [32, 9] 92 true [97] [98] 32
      (by decide) (by decide) (by decide)⟩

/-- C7: in either mode, for every rune `q` that `check` classifies as Quote and every
non-empty text `s` containing neither `q` nor the escaper, `Parse ([q] ++ s ++ [q])` succeeds
with exactly the one token `s`. -/
theorem C7_quoted_span_is_one_token (quotes splitors : List Nat) (escaper : Rune)
    (lenient : Bool) (q : Rune) (s : List Rune)
    (hq : (NewArgParser quotes splitors escaper lenient).check q = some state.qut)
    (hne : s ≠ []) (hs : ∀ x ∈ s, x ≠ q ∧ x ≠ escaper) :
    (NewArgParser quotes splitors escaper lenient).Parse ([q] ++ s ++ [q]) = ([s], none) := by
  unfold ArgParser.Parse
  rw [scan_append, scan_quote_open _ q s hq hs, List.foldl_cons, List.foldl_nil,
    step_close_quote _ _ q hq rfl, finish_spl _ _ rfl]
  simp [flushed, hne]

/-- Witness of C7: the strict parser on `'a "b'`, a single-quoted span holding a space and
the other quote character. -/
theorem C7_quoted_span_is_one_token_witness :
    (NewArgParser [34, 39] [32, 9] 92 false).check 39 = some state.qut ∧
    ([97, 32, 34, 98] : List Rune) ≠ [] ∧
    (∀ x ∈ ([97, 32, 34, 98] : List Rune), x ≠ 39 ∧ x ≠ 92) ∧
    (NewArgParser [34, 39] [32, 9] 92 false).Parse ([39] ++ [97, 32, 34, 98] ++ [39])
      = ([[97, 32, 34, 98]], none) :=
  ⟨by decide, by decide, by decide,
    C7_quoted_span_is_one_token [34, 39] [32, 9] 92 false 39 [97, 32, 34, 98]
      (by decide) (by decide) (by decide)⟩

/-- C8: for every rune `q` that `check` classifies as Quote and every non-empty text `s`
containing neither `q` nor the escaper, the lenient parser returns the single token `s` and
no error on `[q] ++ s`, and the strict parser with the same quotes, splitors and escaper
returns no tokens and the "unfinished quote" error. -/
theorem C8_unterminated_quote (quotes splitors : List Nat) (escaper : Rune)
    (q : Rune) (s : List Rune)
    (hq : (NewArgParser quotes splitors escaper true).check q = some state.qut)
    (hne : s ≠ []) (hs : ∀ x ∈ s, x ≠ q ∧ x ≠ escaper) :
    (NewArgParser quotes splitors escaper true).Parse ([q] ++ s) = ([s], none) ∧
    (NewArgParser quotes splitors escaper false).Parse ([q] ++ s)
      = ([], some errUnfinishedQuote) := by
  have hq2 : (NewArgParser quotes splitors escaper false).check q = some state.qut := hq
  constructor
  · unfold ArgParser.Parse
    rw [scan_quote_open _ q s hq hs, finish_lenient _ _ rfl (by simp)]
    simp [flushed, hne]
  · unfold ArgParser.Parse
    rw [scan_quote_open _ q s hq2 hs, finish_strict_quote _ _ rfl q [] rfl]

/-- Witness of C8: the text `"ab` with the general quotes, splitors and escaper. -/
theorem C8_unterminated_quote_witness :
    (NewArgParser [34, 39] [32, 9] 92 true).check 34 = some state.qut ∧
    ([97, 98] : List Rune) ≠ [] ∧
    (∀ x ∈ ([97, 98] : List Rune), x ≠ 34 ∧ x ≠ 92) ∧
    ((NewArgParser [34, 39] [32, 9] 92 true).Parse ([34] ++ [97, 98]) = ([[97, 98]], none) ∧
      (NewArgParser [34, 39] [32, 9] 92 false).Parse ([34] ++ [97, 98])
        = ([], some errUnfinishedQuote)) :=
  ⟨by decide, by decide, by decide,
    C8_unterminated_quote [34, 39] [32, 9] 92 34 [97, 98] (by decide) (by decide) (by decide)⟩

/-- C9: for every text `s` none of whose runes is the escaper or a rune of the quote
string, the strict parser returns no tokens and the "unfinished escape" error on
`s ++ [escaper]`, and the lenient parser returns on `s ++ [escaper]` no error and exactly the
tokens of the lenient `Parse s`. -/
theorem C9_trailing_escape (quotes splitors : List Nat) (escaper : Rune) (s : List Rune)
    (h : ∀ c ∈ s, c ≠ escaper ∧ c ∉ toRunes quotes) :
    (NewArgParser quotes splitors escaper false).Parse (s ++ [escaper])
      = ([], some errUnfinishedEscape) ∧
    ((NewArgParser quotes splitors escaper true).Parse (s ++ [escaper])).2 = none ∧
    ((NewArgParser quotes splitors escaper true).Parse (s ++ [escaper])).1
      = ((NewArgParser quotes splitors escaper true).Parse s).1 := by
  have hne : ∀ lenient : Bool,
      (scan (NewArgParser quotes splitors escaper lenient) s).scopes = [Scope.st state.spl] ∨
        ∃ q, (scan (NewArgParser quotes splitors escaper lenient) s).scopes
          = [Scope.quote q] :=
    fun lenient => scan_no_escaper _ s (fun c hc => (h c hc).1)
  have key : ∀ lenient : Bool,
      scan (NewArgParser quotes splitors escaper lenient) (s ++ [escaper])
        = { args := (scan (NewArgParser quotes splitors escaper lenient) s).args,
            scopes := Scope.st state.esc ::
              (scan (NewArgParser quotes splitors escaper lenient) s).scopes,
            buf := (scan (NewArgParser quotes splitors escaper lenient) s).buf } := by
    intro lenient
    have e := step_escaper_push (NewArgParser quotes splitors escaper lenient) _ (hne lenient)
    rw [scan_append, List.foldl_cons, List.foldl_nil]
    exact e
  have h1 : (scan (NewArgParser quotes splitors escaper true) s).scopes ≠ [] := by
    rcases hne true with e | ⟨q, e⟩ <;> simp [e]
  refine ⟨?_, ?_, ?_⟩
  · unfold ArgParser.Parse
    rw [key false, finish_strict_esc _ _ rfl _ rfl]
  · unfold ArgParser.Parse
    rw [key true, finish_lenient _ _ rfl (by simp)]
  · unfold ArgParser.Parse
    rw [key true, finish_lenient _ _ rfl (by simp), finish_lenient _ _ rfl h1]
    simp [flushed]

/-- Witness of C9: the text `a b\` with the general quotes, splitors and escaper. -/
theorem C9_trailing_escape_witness :
    (∀ c ∈ ([97, 32, 98] : List Rune), c ≠ 92 ∧ c ∉ toRunes [34, 39]) ∧
    (NewArgParser [34, 39] [32, 9] 92 true).Parse ([97, 32, 98] ++ [92])
      = ([[97], [98]], none) ∧
    ((NewArgParser [34, 39] [32, 9] 92 false).Parse ([97, 32, 98] ++ [92])
        = ([], some errUnfinishedEscape) ∧
      ((NewArgParser [34, 39] [32, 9] 92 true).Parse ([97, 32, 98] ++ [92])).2 = none ∧
      ((NewArgParser [34, 39] [32, 9] 92 true).Parse ([97, 32, 98] ++ [92])).1
        = ((NewArgParser [34, 39] [32, 9] 92 true).Parse [97, 32, 98]).1) :=
  ⟨by decide, by decide, C9_trailing_escape [34, 39] [32, 9] 92 [97, 32, 98] (by decide)⟩

/-- C10: for every parser and every text, every token that `Parse` returns is a non-empty
string. -/
theorem C10_tokens_nonempty (ap : ArgParser) (text : List Rune) :
    ∀ t ∈ (ap.Parse text).1, t ≠ [] := by
  have hs : ∀ t ∈ (scan ap text).args, t ≠ [] :=
    foldl_args_nonempty ap text initState (by simp [initState])
  unfold ArgParser.Parse
  rcases finish_args ap (scan ap text) with h | h | h
  · rw [h]; simp
  · rw [h]; exact hs
  · rw [h]; exact flushed_nonempty _ hs

/-- Witness of C10: the general parser on `  a  "" b ` (leading, repeated and trailing
spaces and an empty quoted span) returns the tokens `a` and `b`, and `a` is not empty. -/
theorem C10_tokens_nonempty_witness :
    GeneralArgParser.Parse [32, 32, 97, 32, 32, 34, 34, 32, 98, 32] = ([[97], [98]], none) ∧
    ([97] : List Rune) ≠ [] :=
  ⟨by decide,
    C10_tokens_nonempty GeneralArgParser [32, 32, 97, 32, 32, 34, 34, 32, 98, 32] [97]
      (by decide)⟩

/-- C11: in either mode, for every rune `q` that `check` classifies as Quote and all texts
`s1`, `s2` containing neither `q` nor the escaper,
`Parse ([q] ++ s1 ++ [escaper, q] ++ s2 ++ [q])` succeeds with the single token
`s1 ++ [q] ++ s2`: the escaped matching quote is literal text and does not close the span. -/
theorem C11_escaped_quote_inside_quotes (quotes splitors : List Nat) (escaper : Rune)
    (lenient : Bool) (q : Rune) (s1 s2 : List Rune)
    (hq : (NewArgParser quotes splitors escaper lenient).check q = some state.qut)
    (h1 : ∀ x ∈ s1, x ≠ q ∧ x ≠ escaper) (h2 : ∀ x ∈ s2, x ≠ q ∧ x ≠ escaper) :
    (NewArgParser quotes splitors escaper lenient).Parse
        ([q] ++ s1 ++ [escaper, q] ++ s2 ++ [q])
      = ([s1 ++ [q] ++ s2], none) := by
  have he : (NewArgParser quotes splitors escaper lenient).escaper = escaper := rfl
  have hesc : (NewArgParser quotes splitors escaper lenient).check escaper = some state.esc :=
    (check_esc_iff _ escaper).mpr rfl
  unfold ArgParser.Parse
  rw [scan_append, scan_append, scan_append, scan_quote_open _ q s1 hq h1,
    List.foldl_cons, List.foldl_cons, List.foldl_nil, List.foldl_cons, List.foldl_nil]
  have e1 : step (NewArgParser quotes splitors escaper lenient)
      { args := [], scopes := [Scope.quote q], buf := s1 } escaper
      = { args := [], scopes := [Scope.st state.esc, Scope.quote q], buf := s1 } := by
    simp [step, hesc, Peek, escape, pushScope, Push]
  have hq' : (NewArgParser quotes splitors escaper lenient).check q ≠ none := by
    rw [hq]; simp
  have e2 := step_escaped (NewArgParser quotes splitors escaper lenient)
    { args := [], scopes := [Scope.st state.esc, Scope.quote q], buf := s1 } q
    [Scope.quote q] rfl hq'
  rw [e1, e2, foldl_in_quote _ q [] s2 h2 _ rfl, step_close_quote _ _ q hq rfl,
    finish_spl _ _ rfl]
  simp [flushed]

/-- Witness of C11: the strict parser on `"a\"b"`. -/
theorem C11_escaped_quote_inside_quotes_witness :
    (NewArgParser [34, 39] [32, 9] 92 false).check 34 = some state.qut ∧
    (∀ x ∈ ([97] : List Rune), x ≠ 34 ∧ x ≠ 92) ∧
    (∀ x ∈ ([98] : List Rune), x ≠ 34 ∧ x ≠ 92) ∧
    (NewArgParser [34, 39] [32, 9] 92 false).Parse ([34] ++ [97] ++ [92, 34] ++ [98] ++ [34])
      = ([[97] ++ [34] ++ [98]], none) :=
  ⟨by decide, by decide, by decide,
    C11_escaped_quote_inside_quotes [34, 39] [32, 9] 92 false 34 [97] [98]
      (by decide) (by decide) (by decide)⟩

/-- C12: `GeneralArgParser` is lenient; its `check` returns Quote exactly for `"` (34) and
the single quote (39), Delimiter exactly for space (32) and tab (9), Escape exactly for
backslash (92) and nil for every other rune; and it parses `a b` into the tokens `a`, `b`
without error. -/
theorem C12_general_preset (c : Rune) :
    GeneralArgParser.lenient = true ∧
    (GeneralArgParser.check c = some state.qut ↔ (c = 34 ∨ c = 39)) ∧
    (GeneralArgParser.check c = some state.spl ↔ (c = 32 ∨ c = 9)) ∧
    (GeneralArgParser.check c = some state.esc ↔ c = 92) ∧
    (GeneralArgParser.check c = none ↔ (c ≠ 34 ∧ c ≠ 39 ∧ c ≠ 32 ∧ c ≠ 9 ∧ c ≠ 92)) ∧
    GeneralArgParser.Parse [97, 32, 98] = ([[97], [98]], none) := by
  refine ⟨rfl, ?_, ?_, ?_, ?_, by decide⟩ <;>
  · by_cases h92 : c = 92
    · subst h92; decide
    · by_cases h34 : c = 34
      · subst h34; decide
      · by_cases h39 : c = 39
        · subst h39; decide
        · by_cases h32 : c = 32
          · subst h32; decide
          · by_cases h9 : c = 9
            · subst h9; decide
            · have hnone : GeneralArgParser.check c = none := by
                have hm : c ∉ toRunesAux 0 [34, 39, 32, 9] := by
                  have e : toRunesAux 0 [34, 39, 32, 9] = [34, 39, 32, 9] := by decide
                  rw [e]
                  simp [h34, h39, h32, h9]
                have hi : IndexRune [34, 39, 32, 9] c = -1 := by
                  rw [IndexRune_eq_rangeIndexAux]
                  exact (rangeIndexAux_eq_neg_one_iff c _ 0).mpr hm
                have hs : GeneralArgParser.symbols = [34, 39, 32, 9] := rfl
                have he : GeneralArgParser.escaper = 92 := rfl
                unfold ArgParser.check
                rw [hs, he, if_neg h92, hi]
                rfl
              simp [hnone, h92, h34, h39, h32, h9]

/-- C13 (code bug): the general parser on the text `\a b` (backslash, a, space, b).  The
runes a and b are literal and the space is a delimiter, but after the literal rune a the
Escape scope is still on top of the stack, so the space is taken as the escaped rune and
`Parse` returns the one token `a b`, not the two tokens `a` and `b`. -/
theorem C13_literal_does_not_pop_escape :
    GeneralArgParser.check 97 = none ∧ GeneralArgParser.check 98 = none ∧
    GeneralArgParser.check 32 = some state.spl ∧
    (scan GeneralArgParser [92, 97]).scopes = [Scope.st state.esc, Scope.st state.spl] ∧
    GeneralArgParser.Parse [92, 97, 32, 98] = ([[97, 32, 98]], none) ∧
    GeneralArgParser.Parse [92, 97, 32, 98] ≠ ([[97], [98]], none) := by
  decide

/-- C14: in either mode, for every rune `q` that `check` classifies as Quote and all
non-empty texts `s1`, `s2`, `s3` of runes that `check` classifies as literal,
`Parse (s1 ++ [q] ++ s2 ++ [q] ++ s3)` succeeds with exactly the three tokens `s1`, `s2`,
`s3`. -/
theorem C14_quotes_are_token_boundaries (quotes splitors : List Nat) (escaper : Rune)
    (lenient : Bool) (q : Rune) (s1 s2 s3 : List Rune)
    (hq : (NewArgParser quotes splitors escaper lenient).check q = some state.qut)
    (n1 : s1 ≠ []) (n2 : s2 ≠ []) (n3 : s3 ≠ [])
    (h1 : ∀ x ∈ s1, (NewArgParser quotes splitors escaper lenient).check x = none)
    (h2 : ∀ x ∈ s2, (NewArgParser quotes splitors escaper lenient).check x = none)
    (h3 : ∀ x ∈ s3, (NewArgParser quotes splitors escaper lenient).check x = none) :
    (NewArgParser quotes splitors escaper lenient).Parse (s1 ++ [q] ++ s2 ++ [q] ++ s3)
      = ([s1, s2, s3], none) := by
  unfold ArgParser.Parse
  rw [scan_append, scan_append, scan_append, scan_append]
  have e1 : scan (NewArgParser quotes splitors escaper lenient) s1
      = { args := [], scopes := [Scope.st state.spl], buf := s1 } := by
    unfold scan
    rw [foldl_literal _ s1 h1]
    simp [initState, Push]
  have e2 := step_open_quote (NewArgParser quotes splitors escaper lenient)
    { args := [], scopes := [Scope.st state.spl], buf := s1 } q hq rfl
  have e3 := step_close_quote (NewArgParser quotes splitors escaper lenient)
    { args := [s1], scopes := [Scope.quote q], buf := s2 } q hq rfl
  have f1 : flushed { args := [], scopes := [Scope.st state.spl], buf := s1 } = [s1] := by
    simp [flushed, n1]
  have f2 : flushed { args := [s1], scopes := [Scope.quote q], buf := s2 } = [s1, s2] := by
    simp [flushed, n2]
  rw [f1] at e2
  rw [f2] at e3
  simp only [List.foldl_cons, List.foldl_nil]
  rw [e1, e2, foldl_literal _ s2 h2]
  simp only [List.nil_append]
  rw [e3, foldl_literal _ s3 h3, finish_spl _ _ rfl]
  simp [flushed, n3]

/-- Witness of C14: the strict parser on `a"b"c`. -/
theorem C14_quotes_are_token_boundaries_witness :
    (NewArgParser [34, 39] [32, 9] 92 false).check 34 = some state.qut ∧
    (NewArgParser [34, 39] [32, 9] 92 false).Parse ([97] ++ [34] ++ [98] ++ [34] ++ [99])
      = ([[97], [98], [99]], none) :=
  ⟨by decide,
    C14_quotes_are_token_boundaries [34, 39] [32, 9] 92 false 34 [97] [98] [99]
      (by decide) (by decide) (by decide) (by decide) (by decide) (by decide) (by decide)⟩

/-- C15: for every parser, every text and every `n`, the scope stack after the first `n`
runes of the text have been processed (`n = 0`: before the first rune) is not empty, and
the `Peek` on it returns a scope, not nil. -/
theorem C15_stack_nonempty_during_scan (ap : ArgParser) (text : List Rune) (n : Nat) :
    (scan ap (text.take n)).scopes ≠ [] ∧ Peek (scan ap (text.take n)).scopes ≠ none := by
  rcases scan_shape ap (text.take n) with h | ⟨q, h⟩ | h | ⟨q, h⟩ <;> simp [h, Peek]

/-! ## Single-byte quotes, mode independence, and the accumulated runes -/

theorem step_lenient_irrelevant (quotes splitors : List Nat) (escaper : Rune)
    (l1 l2 : Bool) :
    step (NewArgParser quotes splitors escaper l1)
      = step (NewArgParser quotes splitors escaper l2) := rfl

theorem scan_lenient_irrelevant (quotes splitors : List Nat) (escaper : Rune)
    (l1 l2 : Bool) (text : List Rune) :
    scan (NewArgParser quotes splitors escaper l1) text
      = scan (NewArgParser quotes splitors escaper l2) text := by
  unfold scan
  rw [step_lenient_irrelevant quotes splitors escaper l1 l2]

theorem step_content (ap : ArgParser) (s : PState) (c : Rune) :
    content (step ap s c) = content s ∨ content (step ap s c) = content s ++ [c] := by
  unfold step
  rcases ap.check c with _ | t
  · simp [acc, content]
  · rcases hp : Peek s.scopes with _ | x
    · cases t <;> simp [escape, pushScope, content]
    · rcases x with u | q
      · cases t <;> cases u <;>
          simp only [escape, acc, pushScope, fin_eq, flushed, content] <;>
          (try split_ifs) <;> simp_all
      · cases t <;> simp only [escape, acc, pushScope, fin_eq, flushed, content] <;>
          (try split_ifs) <;> simp_all

theorem foldl_content_sublist (ap : ArgParser) (text : List Rune) :
    ∀ s : PState, List.Sublist (content (text.foldl (step ap) s)) (content s ++ text) := by
  induction text with
  | nil => intro s; simp
  | cons x xs ih =>
    intro s
    rw [List.foldl_cons]
    refine (ih (step ap s x)).trans ?_
    rcases step_content ap s x with h | h
    · rw [h]
      exact List.Sublist.append_left (List.sublist_cons_self x xs) _
    · rw [h]
      simp

theorem finish_flatten_sublist (ap : ArgParser) (s : PState) :
    List.Sublist (finish ap s).1.flatten (content s) := by
  rcases finish_args ap s with h | h | h
  · rw [h]; simp
  · rw [h]; exact List.sublist_append_left _ _
  · rw [h]
    unfold flushed content
    split_ifs with hb <;> simp [hb]

/-- C16: when every rune of the quote string is ASCII (one byte), `check` equals the
reference classifier (Escape if the rune is the escaper, else Quote if it is a rune of
`quotes`, else Delimiter if it is a rune of `splitors`, else nil), whatever bytes `splitors`
holds; in particular a rune other than the escaper that occurs in both strings is
classified Quote. -/
theorem C16_check_with_ascii_quotes (quotes splitors : List Nat) (escaper : Rune)
    (lenient : Bool) (c : Rune) (ha : ∀ r ∈ toRunes quotes, 0 ≤ r ∧ r < 128) :
    (NewArgParser quotes splitors escaper lenient).check c
        = checkSpec (toRunes quotes) (toRunes splitors) escaper c ∧
    (c ≠ escaper → c ∈ toRunes quotes → c ∈ toRunes splitors →
      (NewArgParser quotes splitors escaper lenient).check c = some state.qut) := by
  have hbytes := bytes_ascii_of_runes quotes ha
  obtain ⟨hvalid, hlen⟩ := ascii_valid_and_length quotes hbytes
  have key : (NewArgParser quotes splitors escaper lenient).check c
      = checkSpec (toRunes quotes) (toRunes splitors) escaper c := by
    by_cases he : c = escaper
    · simp [ArgParser.check, NewArgParser, checkSpec, he]
    · by_cases hq : c ∈ toRunes quotes
      · have h1 := rangeIndexAux_append_of_mem c quotes splitors 0 hvalid (Nat.zero_le _) hq
        have h2 := rangeIndexAux_ge c quotes 0
        have h3 : ¬ rangeIndexAux c 0 quotes = -1 :=
          fun e => ((rangeIndexAux_eq_neg_one_iff c quotes 0).mp e) hq
        have h4 : rangeIndexAux c 0 quotes < (quotes.length : Int) := by
          rcases rangeIndexAux_lt c quotes 0 with h | ⟨_, h⟩
          · exact h
          · exact absurd h h3
        have hb : (NewArgParser quotes splitors escaper lenient).boundary
            = ((toRunesAux 0 quotes).length : Int) := rfl
        have hs : (NewArgParser quotes splitors escaper lenient).symbols
            = quotes ++ splitors := rfl
        have hne : ¬ c = (NewArgParser quotes splitors escaper lenient).escaper := he
        have hlt : rangeIndexAux c 0 quotes < ((toRunesAux 0 quotes).length : Int) := by
          rw [hlen]; exact h4
        unfold ArgParser.check
        rw [if_neg hne]
        simp only [hs, hb, IndexRune_eq_rangeIndexAux, h1, h3, hlt, if_true, if_false]
        simp [checkSpec, he, hq]
      · rw [check_of_not_quote quotes splitors escaper lenient c hvalid he hq]
        simp [checkSpec, he, hq]
  refine ⟨key, ?_⟩
  intro he hq _
  rw [key]
  simp [checkSpec, he, hq]

/-- Witness of C16: the general quotes and splitors extended so that the space occurs in
both strings; the space is classified Quote. -/
theorem C16_check_with_ascii_quotes_witness :
    (∀ r ∈ toRunes [34, 39, 32], 0 ≤ r ∧ r < 128) ∧
    checkSpec (toRunes [34, 39, 32]) (toRunes [32, 9]) 92 32 = some state.qut ∧
    ((NewArgParser [34, 39, 32] [32, 9] 92 true).check 32
        = checkSpec (toRunes [34, 39, 32]) (toRunes [32, 9]) 92 32 ∧
      ((32 : Rune) ≠ 92 → (32 : Rune) ∈ toRunes [34, 39, 32] →
        (32 : Rune) ∈ toRunes [32, 9] →
        (NewArgParser [34, 39, 32] [32, 9] 92 true).check 32 = some state.qut)) :=
  ⟨by decide, by decide,
    C16_check_with_ascii_quotes [34, 39, 32] [32, 9] 92 true 32 (by decide)⟩

/-- C17: whenever the strict parser returns no error on a text, the lenient parser with the
same quotes, splitors and escaper returns exactly the same result (the same tokens, and no
error). -/
theorem C17_lenient_agrees_with_strict (quotes splitors : List Nat) (escaper : Rune)
    (text : List Rune)
    (h : ((NewArgParser quotes splitors escaper false).Parse text).2 = none) :
    (NewArgParser quotes splitors escaper true).Parse text
      = (NewArgParser quotes splitors escaper false).Parse text := by
  have hsc := scan_lenient_irrelevant quotes splitors escaper true false text
  unfold ArgParser.Parse at h ⊢
  rw [hsc]
  rcases scan_shape (NewArgParser quotes splitors escaper false) text
    with hs | ⟨q, hs⟩ | hs | ⟨q, hs⟩
  · rw [finish_spl _ _ hs, finish_spl _ _ hs]
  · rw [finish_strict_quote _ _ rfl q [] hs] at h
    simp at h
  · rw [finish_strict_esc _ _ rfl _ hs] at h
    simp at h
  · rw [finish_strict_esc _ _ rfl _ hs] at h
    simp at h

/-- Witness of C17: the text `a "b c"` with the general quotes, splitors and escaper. -/
theorem C17_lenient_agrees_with_strict_witness :
    ((NewArgParser [34, 39] [32, 9] 92 false).Parse [97, 32, 34, 98, 32, 99, 34]).2 = none ∧
    (NewArgParser [34, 39] [32, 9] 92 false).Parse [97, 32, 34, 98, 32, 99, 34]
      = ([[97], [98, 32, 99]], none) ∧
    (NewArgParser [34, 39] [32, 9] 92 true).Parse [97, 32, 34, 98, 32, 99, 34]
      = (NewArgParser [34, 39] [32, 9] 92 false).Parse [97, 32, 34, 98, 32, 99, 34] :=
  ⟨by decide, by decide,
    C17_lenient_agrees_with_strict [34, 39] [32, 9] 92 [97, 32, 34, 98, 32, 99, 34]
      (by decide)⟩

/-- C18: for every parser and every text, the concatenation of the tokens that `Parse`
returns, in order, is a subsequence of the runes of the text.  On failure no tokens are
returned, so the statement holds for every outcome, in particular whenever `Parse`
succeeds. -/
theorem C18_tokens_are_subsequence (ap : ArgParser) (text : List Rune) :
    List.Sublist (ap.Parse text).1.flatten text := by
  unfold ArgParser.Parse scan
  refine (finish_flatten_sublist ap _).trans ?_
  have h := foldl_content_sublist ap text initState
  simpa [content, initState] using h

/-- C19: for every parser, every text and every `n`, the scope stack after the first `n`
runes have been processed is (top first) `[spl]`, `[quote q]`, `[esc, spl]` or
`[esc, quote q]`; so its depth is at most 2 and the classifier value `qut` is never on
it. -/
theorem C19_stack_shapes (ap : ArgParser) (text : List Rune) (n : Nat) :
    ((scan ap (text.take n)).scopes = [Scope.st state.spl] ∨
      (∃ q, (scan ap (text.take n)).scopes = [Scope.quote q]) ∨
      (scan ap (text.take n)).scopes = [Scope.st state.esc, Scope.st state.spl] ∨
      ∃ q, (scan ap (text.take n)).scopes = [Scope.st state.esc, Scope.quote q]) ∧
    (scan ap (text.take n)).scopes.length ≤ 2 ∧
    Scope.st state.qut ∉ (scan ap (text.take n)).scopes := by
  have h := scan_shape ap (text.take n)
  refine ⟨h, ?_, ?_⟩ <;>
    rcases h with h | ⟨q, h⟩ | h | ⟨q, h⟩ <;> simp [h]

/-! ## The stack operations of one `Parse` -/

theorem stepOps_eq_length (ap : ArgParser) (s : PState) (c : Rune) :
    ∀ n ∈ stepOps ap s c, n = s.scopes.length := by
  unfold stepOps
  rcases ap.check c with _ | t
  · simp
  · rcases hp : Peek s.scopes with _ | x
    · cases t <;> simp [escapeOps]
    · rcases x with u | q
      · cases t <;> cases u <;> simp [escapeOps, escape, finOps]
      · cases t <;> simp only [escapeOps, finOps] <;> (try split_ifs) <;> simp

theorem scanOps_ne_zero (ap : ArgParser) (text : List Rune) :
    ∀ s : PState, Shape s.scopes → ∀ n ∈ scanOps ap text s, n ≠ 0 := by
  induction text with
  | nil => intro s _ n hn; simp [scanOps] at hn
  | cons x xs ih =>
    intro s hs n hn
    simp only [scanOps, List.mem_append] at hn
    rcases hn with hn | hn
    · rw [stepOps_eq_length ap s x n hn]
      rcases hs with h | ⟨q, h⟩ | h | ⟨q, h⟩ <;> simp [h]
    · exact ih (step ap s x) (step_shape ap s x hs) n hn

theorem finishOps_lenient (ap : ArgParser) (s : PState) (hl : ap.lenient = true)
    (hs : s.scopes ≠ []) : finishOps ap s = [s.scopes.length] := by
  simp [finishOps, hs, hl, finOps]

theorem finishOps_strict (ap : ArgParser) (s : PState) (hl : ap.lenient = false)
    (hs : Shape s.scopes) :
    finishOps ap s = if s.scopes = [Scope.st state.spl] then [1, 0] else [s.scopes.length] := by
  rcases hs with h | ⟨q, h⟩ | h | ⟨q, h⟩ <;> simp [finishOps, h, hl, finOps, Pop]

/-- C20 (counterexample): the strict general parser on the text `a`.  The stack sizes at
its `Peek` and `Pop` calls are 1 (the `Peek` of the only iteration), 1 (the `Pop` of
line 143) and 0 (the `Pop` inside `fin` on the success branch): a `Pop` is applied to the
empty stack. -/
theorem C20_strict_success_pops_empty_stack :
    ParseOps (NewArgParser [34, 39] [32, 9] 92 false) [97] = [1, 1, 0] ∧
    ¬ (∀ n ∈ ParseOps (NewArgParser [34, 39] [32, 9] 92 false) [97], n ≠ 0) := by
  decide

/-- C20 (amended): for every parser and every text, every `Peek` and every `Pop` of the
scanning loop is applied to a non-empty stack; in lenient mode so is every `Peek` and `Pop`
of the whole `Parse`; in strict mode the `Pop` of line 143 is applied to a non-empty stack,
and exactly when the loop leaves the single Delimiter scope (the success case) the `Pop`
inside `fin` follows it on the stack that it has just emptied. -/
theorem C20_stack_operations (ap : ArgParser) (text : List Rune) :
    (∀ n ∈ scanOps ap text initState, n ≠ 0) ∧
    (ap.lenient = true → ∀ n ∈ ParseOps ap text, n ≠ 0) ∧
    (ap.lenient = false →
      finishOps ap (scan ap text) =
        (if (scan ap text).scopes = [Scope.st state.spl] then [1, 0]
         else [(scan ap text).scopes.length]) ∧
      (scan ap text).scopes.length ≠ 0) := by
  have h0 : Shape initState.scopes := by simp [initState, Shape, Push]
  have hsh := scan_shape ap text
  have hne : (scan ap text).scopes ≠ [] := by
    rcases hsh with h | ⟨q, h⟩ | h | ⟨q, h⟩ <;> simp [h]
  refine ⟨scanOps_ne_zero ap text initState h0, ?_, ?_⟩
  · intro hl n hn
    simp only [ParseOps, List.mem_append] at hn
    rcases hn with hn | hn
    · exact scanOps_ne_zero ap text initState h0 n hn
    · rw [finishOps_lenient ap _ hl hne] at hn
      simp only [List.mem_singleton] at hn
      rw [hn]
      simpa using hne
  · intro hl
    exact ⟨finishOps_strict ap _ hl hsh, by simpa using hne⟩

/-- Witness of C20 (amended): the lenient and the strict parser on `a "b`. -/
theorem C20_stack_operations_witness :
    ParseOps (NewArgParser [34, 39] [32, 9] 92 true) [97, 32, 34, 98] = [1, 1, 1, 1, 1, 1, 1] ∧
    (∀ n ∈ ParseOps (NewArgParser [34, 39] [32, 9] 92 true) [97, 32, 34, 98], n ≠ 0) ∧
    finishOps (NewArgParser [34, 39] [32, 9] 92 false)
        (scan (NewArgParser [34, 39] [32, 9] 92 false) [97, 32, 34, 98]) = [1] :=
  ⟨by decide,
    (C20_stack_operations (NewArgParser [34, 39] [32, 9] 92 true) [97, 32, 34, 98]).2.1 rfl,
    ((C20_stack_operations (NewArgParser [34, 39] [32, 9] 92 false) [97, 32, 34, 98]).2.2
      rfl).1⟩

end ArgParse
